import Mathlib

/-!
User-Driven Banking System: ledger, process table and round-robin scheduler.

A shallow embedding of `src/project.c`.

Modelling conventions.
* A C `int` is an `Int`. The `int` arithmetic of the scheduler and of the coordinator
  (clock, completion, turnaround and waiting times) wraps to 32 bits (`wrap32`); the other
  `int` results (`index + 1`, `count + 1`, `remaining_time - TIME_QUANTUM` under its guard)
  cannot overflow.
* A C `double` is an IEEE-754 binary64 value (`Double`): numbers with a 53-bit significand,
  the two zeros, the infinities and NaN; `+` and `-` round to nearest, ties to even, and
  overflow to an infinity; comparisons with a NaN are false.
* A C array of `n` cells is a function `Fin n → α`; `rd`/`wr` index it with an `int`.
* `printf` / `notify_transaction` output is modelled by the value of type `Notice`
  returned by the operation (one constructor per `sprintf` format string). A `sprintf` that
  would run past `char msg[100]` is undefined behaviour: the operation returns `none`.
  The message queue is taken to deliver every message.
* The mutex only brackets each operation; an operation is modelled as one atomic
  state transformer.
-/

set_option autoImplicit false
set_option maxRecDepth 8000
set_option exponentiation.threshold 2200

namespace Bank

/-! ## Constants (`#define`s) -/

/-- C: `#define MAX_ACCOUNTS 10`. -/
abbrev MAX_ACCOUNTS : Nat := 10

/-- C: `#define TIME_QUANTUM 2`. -/
abbrev TIME_QUANTUM : Int := 2

/-- C: `#define MAX_PROCESSES 100`. -/
abbrev MAX_PROCESSES : Nat := 100

/-! ## C arrays -/

/-- Read `a[i]` for an `int` index. Outside the allocation the read is undefined in C;
every read in the embedded code is guarded by a range test, and the model returns
`default` there. -/
def rd {α : Type} [Inhabited α] {n : Nat} (a : Fin n → α) (i : Int) : α :=
  if h : 0 ≤ i ∧ i < (n : Int) then a ⟨i.toNat, by omega⟩ else default

/-- Write `a[i] = v` for an `int` index inside the allocation (no effect outside; callers
that can reach an index outside the allocation treat that case themselves). -/
def wr {α : Type} {n : Nat} (a : Fin n → α) (i : Int) (v : α) : Fin n → α :=
  if h : 0 ≤ i ∧ i < (n : Int) then Function.update a ⟨i.toNat, by omega⟩ v else a

/-! ## The C type `double` (IEEE-754 binary64, round to nearest, ties to even) -/

/-- A `double`: a NaN, an infinity, or the number `(-1)^neg * m * 2^e`. The values of the
program are those accepted by `Double.valid` (one representation for each number, the two
zeros included). The sign and payload of a NaN are not modelled. -/
inductive Double where
  | nan
  | inf (neg : Bool)
  | num (neg : Bool) (m : Nat) (e : Int)
deriving DecidableEq, Repr

/-- The binary64 values: a 53-bit significand `m` scaled by `2^e` with `-1074 ≤ e ≤ 971`,
normalised (`2^52 ≤ m`) unless `e = -1074` (subnormal numbers and zero). -/
def Double.valid : Double → Bool
  | Double.nan => true
  | Double.inf _ => true
  | Double.num _ m e =>
      decide (m < 2 ^ 53 ∧ -1074 ≤ e ∧ e ≤ 971 ∧ (2 ^ 52 ≤ m ∨ e = -1074))

/-- The value `+0.0` (all bits zero, what `memset` writes). -/
def Double.zero : Double := Double.num false 0 (-1074)

/-- Number of binary digits of `m` (0 for 0). -/
def bitLength (m : Nat) : Nat := if m = 0 then 0 else (Nat.toDigits 2 m).length

/-- A significand `q ≤ 2^53` at exponent `e`, after rounding: a carry to `2^53` moves to the
next exponent, and a result of `2^1024` or more is an infinity. -/
def pack (neg : Bool) (q : Nat) (e : Int) : Double :=
  if q = 2 ^ 53 then
    if e + 1 > 971 then Double.inf neg else Double.num neg (2 ^ 52) (e + 1)
  else if e > 971 then Double.inf neg
  else Double.num neg q e

/-- The `double` nearest to the exact number `(-1)^neg * m * 2^e` with `m > 0` (ties to the
even significand). -/
def roundPack (neg : Bool) (m : Nat) (e : Int) : Double :=
  let e1 : Int := max (e + (bitLength m : Int) - 53) (-1074)
  if e1 ≤ e then pack neg (m * 2 ^ (e - e1).toNat) e1
  else
    let s := (e1 - e).toNat
    let q := m / 2 ^ s
    let r := m % 2 ^ s
    let half := 2 ^ (s - 1)
    pack neg (if r > half ∨ (r = half ∧ q % 2 = 1) then q + 1 else q) e1

/-- The integer `(-1)^neg * m * 2^(e - e0)`, for `e0 ≤ e`. -/
def scaled (neg : Bool) (m : Nat) (e e0 : Int) : Int :=
  if neg then -((m * 2 ^ (e - e0).toNat : Nat) : Int) else ((m * 2 ^ (e - e0).toNat : Nat) : Int)

/-- C: unary `-` on `double`. -/
def Double.neg : Double → Double
  | Double.nan => Double.nan
  | Double.inf s => Double.inf (!s)
  | Double.num s m e => Double.num (!s) m e

/-- C: `x + y` on `double`. -/
def Double.add : Double → Double → Double
  | Double.nan, _ => Double.nan
  | _, Double.nan => Double.nan
  | Double.inf s, Double.inf t => if s = t then Double.inf s else Double.nan
  | Double.inf s, Double.num _ _ _ => Double.inf s
  | Double.num _ _ _, Double.inf t => Double.inf t
  | Double.num s1 m1 e1, Double.num s2 m2 e2 =>
      let sum := scaled s1 m1 e1 (min e1 e2) + scaled s2 m2 e2 (min e1 e2)
      if sum = 0 then Double.num (s1 && s2) 0 (-1074)
      else roundPack (decide (sum < 0)) sum.natAbs (min e1 e2)

/-- C: `x - y` on `double`. -/
def Double.sub (x y : Double) : Double := Double.add x (Double.neg y)

/-- C: `x >= y` on `double` (false when an operand is a NaN). -/
def Double.ge : Double → Double → Bool
  | Double.nan, _ => false
  | _, Double.nan => false
  | Double.inf s, Double.inf t => !s || t
  | Double.inf s, Double.num _ _ _ => !s
  | Double.num _ _ _, Double.inf t => t
  | Double.num s1 m1 e1, Double.num s2 m2 e2 =>
      decide (scaled s1 m1 e1 (min e1 e2) ≥ scaled s2 m2 e2 (min e1 e2))

/-- C: `x > y` on `double` (false when an operand is a NaN). -/
def Double.gt : Double → Double → Bool
  | Double.nan, _ => false
  | _, Double.nan => false
  | Double.inf s, Double.inf t => !s && t
  | Double.inf s, Double.num _ _ _ => !s
  | Double.num _ _ _, Double.inf t => t
  | Double.num s1 m1 e1, Double.num s2 m2 e2 =>
      decide (scaled s1 m1 e1 (min e1 e2) > scaled s2 m2 e2 (min e1 e2))

/-- The `double` an integer constant converts to. -/
def Double.ofInt (n : Int) : Double :=
  if n = 0 then Double.zero else roundPack (decide (n < 0)) n.natAbs 0

/-- Number of decimal digits of `n` (1 for 0). -/
def decimalDigits (n : Nat) : Nat := (Nat.toDigits 10 n).length

/-- The integer nearest to `m * 2^e * 100` (ties to even): the digits `%.2f` prints. -/
def hundredths (m : Nat) (e : Int) : Nat :=
  if 0 ≤ e then m * 100 * 2 ^ e.toNat
  else
    let q := m * 100 / 2 ^ (-e).toNat
    let r := m * 100 % 2 ^ (-e).toNat
    if 2 * r > 2 ^ (-e).toNat ∨ (2 * r = 2 ^ (-e).toNat ∧ q % 2 = 1) then q + 1 else q

/-- Number of characters `%.2f` writes for a `double`: sign, integer digits, point and two
decimals; `inf`, `-inf`; at most 4 for a NaN. -/
def Double.printedLength : Double → Nat
  | Double.nan => 4
  | Double.inf s => if s then 4 else 3
  | Double.num s m e => (if s then 1 else 0) + decimalDigits (hundredths m e / 100) + 3

/-- Number of characters `%d` writes for an `int`. -/
def intPrintedLength (i : Int) : Nat :=
  (if i < 0 then 1 else 0) + decimalDigits i.natAbs

/-- The number the `double` stands for (0 for an infinity or a NaN). -/
def Double.toRat : Double → ℚ
  | Double.nan => 0
  | Double.inf _ => 0
  | Double.num s m e => (if s then -1 else 1) * (m : ℚ) * (2 : ℚ) ^ e

/-- The `double` is a number (neither an infinity nor a NaN). -/
def Double.isFinite : Double → Bool
  | Double.num _ _ _ => true
  | _ => false

instance (n : Nat) : OfNat Double n := ⟨Double.ofInt n⟩

instance : Neg Double := ⟨Double.neg⟩

/-! ## Ledger -/

/-- C: `struct Account`. -/
structure Account where
  account_id : Int
  customer_id : Int
  balance : Double
deriving DecidableEq, Repr

instance : Inhabited Account := ⟨⟨0, 0, Double.zero⟩⟩

/-- The shared account table `accounts` (`MAX_ACCOUNTS` records). -/
abbrev AccountTable := Fin MAX_ACCOUNTS → Account

/-- C: `initialize_shared_memory` (`memset(accounts, 0, ...)`). -/
def initialize_shared_memory : AccountTable := fun _ => ⟨0, 0, Double.zero⟩

/-- What an operation prints and sends through `notify_transaction`. -/
inductive Notice where
  /-- "Deposit of %.2f to Account ID=%d completed." -/
  | deposit_completed (amount : Double) (account_id : Int)
  /-- "Deposit failed. Invalid Account ID=%d" -/
  | deposit_invalid_account (account_id : Int)
  /-- "Withdrawal of %.2f from Account ID=%d completed." -/
  | withdrawal_completed (amount : Double) (account_id : Int)
  /-- "Withdrawal failed. Insufficient funds. Account ID=%d" -/
  | withdrawal_insufficient_funds (account_id : Int)
  /-- "Withdrawal failed. Invalid Account ID=%d" -/
  | withdrawal_invalid_account (account_id : Int)
deriving DecidableEq, Repr

/-- Size of the buffer `char msg[100]` the messages are written to by `sprintf`. -/
abbrev MSG_SIZE : Nat := 100

/-- Number of characters of "Deposit of  to Account ID= completed.", the fixed text of the
message of a deposit that succeeded. -/
abbrev DEPOSIT_TEXT : Nat := 37

/-- Number of characters of "Withdrawal of  from Account ID= completed.", the fixed text of
the message of a withdrawal that succeeded. -/
abbrev WITHDRAWAL_TEXT : Nat := 42

/-- C: `create_account`. Returns the new table and the returned `int`.
`index < 0` passes the C guard and writes below the array: undefined behaviour, `none`. -/
def create_account (accounts : AccountTable) (customer_id : Int) (initial_balance : Double)
    (index : Int) : Option (AccountTable × Int) :=
  if index < (MAX_ACCOUNTS : Int) then
    if 0 ≤ index then
      some (wr accounts index ⟨index + 1, customer_id, initial_balance⟩, index + 1)
    else none
  else some (accounts, -1)

/-- C: `deposit`. On the success branch `sprintf` writes the fixed text, the amount (`%.2f`),
the id (`%d`) and a NUL into `msg[100]`; when they do not fit the write runs past the buffer
(undefined behaviour, the call does not return normally): `none`. The message of the
failure branch holds only an `int` and always fits. -/
def deposit (accounts : AccountTable) (account_id : Int) (amount : Double) :
    Option (AccountTable × Notice) :=
  if account_id > 0 ∧ account_id ≤ (MAX_ACCOUNTS : Int)
      ∧ (rd accounts (account_id - 1)).account_id ≠ 0 then
    if DEPOSIT_TEXT + amount.printedLength + intPrintedLength account_id + 1 ≤ MSG_SIZE then
      some (wr accounts (account_id - 1)
          { rd accounts (account_id - 1) with
            balance := Double.add (rd accounts (account_id - 1)).balance amount },
        Notice.deposit_completed amount account_id)
    else none
  else some (accounts, Notice.deposit_invalid_account account_id)

/-- C: `withdraw`. As in `deposit`, the message of the success branch can run past
`msg[100]` (`none`); the messages of the two failure branches always fit. -/
def withdraw (accounts : AccountTable) (account_id : Int) (amount : Double) :
    Option (AccountTable × Notice) :=
  if account_id > 0 ∧ account_id ≤ (MAX_ACCOUNTS : Int)
      ∧ (rd accounts (account_id - 1)).account_id ≠ 0 then
    if Double.ge (rd accounts (account_id - 1)).balance amount = true then
      if WITHDRAWAL_TEXT + amount.printedLength + intPrintedLength account_id + 1
          ≤ MSG_SIZE then
        some (wr accounts (account_id - 1)
            { rd accounts (account_id - 1) with
              balance := Double.sub (rd accounts (account_id - 1)).balance amount },
          Notice.withdrawal_completed amount account_id)
      else none
    else some (accounts, Notice.withdrawal_insufficient_funds account_id)
  else some (accounts, Notice.withdrawal_invalid_account account_id)

/-- What `check_balance` prints. -/
inductive BalanceReport where
  /-- "Balance: Account ID=%d, Balance=%.2f" -/
  | balance (account_id : Int) (balance : Double)
  /-- "Invalid Account ID=%d" -/
  | invalid_account (account_id : Int)
deriving DecidableEq, Repr

/-- C: `check_balance` (it only reads the table). -/
def check_balance (accounts : AccountTable) (account_id : Int) : BalanceReport :=
  if account_id > 0 ∧ account_id ≤ (MAX_ACCOUNTS : Int) then
    BalanceReport.balance account_id (rd accounts (account_id - 1)).balance
  else BalanceReport.invalid_account account_id

/-! ### Sequences of deposit / withdraw calls -/

/-- One call of `deposit` or `withdraw`. -/
inductive TxCall where
  | dep (account_id : Int) (amount : Double)
  | wd (account_id : Int) (amount : Double)
deriving DecidableEq, Repr

/-- Run one call. -/
def TxCall.run (accounts : AccountTable) : TxCall → Option (AccountTable × Notice)
  | TxCall.dep id amount => deposit accounts id amount
  | TxCall.wd id amount => withdraw accounts id amount

/-- The account id a call is addressed to. -/
def TxCall.target : TxCall → Int
  | TxCall.dep id _ => id
  | TxCall.wd id _ => id

/-- Run a sequence of calls, left to right: the final table and the outcome of each call, in
call order (`none` when a call does not return). -/
def replay (accounts : AccountTable) : List TxCall → Option (AccountTable × List Notice)
  | [] => some (accounts, [])
  | c :: cs =>
      match c.run accounts with
      | none => none
      | some r =>
          match replay r.1 cs with
          | none => none
          | some r2 => some (r2.1, r.2 :: r2.2)

/-- The balance of the account with id `k + 1` after a call with outcome `out`, computed in
`double` arithmetic from its balance `b` before the call. -/
def balanceAfter (k : Fin MAX_ACCOUNTS) (b : Double) : Notice → Double
  | Notice.deposit_completed amount id => if id = (k : Int) + 1 then Double.add b amount else b
  | Notice.withdrawal_completed amount id =>
      if id = (k : Int) + 1 then Double.sub b amount else b
  | _ => b

/-- The balance of the account with id `k + 1` after calls with the given outcomes, applied in
call order to its balance `b`. -/
def balanceAfterAll (k : Fin MAX_ACCOUNTS) (b : Double) : List Notice → Double
  | [] => b
  | out :: outs => balanceAfterAll k (balanceAfter k b out) outs

/-- Amount (as a number) credited to the account with id `k + 1` by a call whose outcome was
`out`: the amount of a deposit that succeeded on that account, else `0`. -/
def depositedBy (k : Fin MAX_ACCOUNTS) : Notice → ℚ
  | Notice.deposit_completed amount id => if id = (k : Int) + 1 then amount.toRat else 0
  | _ => 0

/-- Amount (as a number) debited from the account with id `k + 1` by a call whose outcome was
`out`: the amount of a withdrawal that succeeded on that account, else `0`. -/
def withdrawnBy (k : Fin MAX_ACCOUNTS) : Notice → ℚ
  | Notice.withdrawal_completed amount id => if id = (k : Int) + 1 then amount.toRat else 0
  | _ => 0

/-- Sum of the amounts of the deposits that succeeded on account `k + 1`. -/
def successfulDeposits (k : Fin MAX_ACCOUNTS) (outs : List Notice) : ℚ :=
  (outs.map (depositedBy k)).sum

/-- Sum of the amounts of the withdrawals that succeeded on account `k + 1`. -/
def successfulWithdrawals (k : Fin MAX_ACCOUNTS) (outs : List Notice) : ℚ :=
  (outs.map (withdrawnBy k)).sum

/-- The `double` operation of a call with outcome `out` on the balance `b` of account `k + 1`
is exact: the operands and the result are numbers and the result is the exact sum or
difference. -/
def exactStep (k : Fin MAX_ACCOUNTS) (b : Double) : Notice → Prop
  | Notice.deposit_completed amount id =>
      id = (k : Int) + 1 →
        b.isFinite = true ∧ amount.isFinite = true ∧ (Double.add b amount).isFinite = true
        ∧ (Double.add b amount).toRat = b.toRat + amount.toRat
  | Notice.withdrawal_completed amount id =>
      id = (k : Int) + 1 →
        b.isFinite = true ∧ amount.isFinite = true ∧ (Double.sub b amount).isFinite = true
        ∧ (Double.sub b amount).toRat = b.toRat - amount.toRat
  | _ => True

/-- Every `double` operation on the balance of account `k + 1` along the calls is exact. -/
def exactRun (k : Fin MAX_ACCOUNTS) (b : Double) : List Notice → Prop
  | [] => True
  | out :: outs => exactStep k b out ∧ exactRun k (balanceAfter k b out) outs

/-! ### Sequences of ledger calls (create_account / deposit / withdraw) -/

/-- One call of a mutating ledger operation. -/
inductive LedgerCall where
  | create (customer_id : Int) (initial_balance : Double) (index : Int)
  | dep (account_id : Int) (amount : Double)
  | wd (account_id : Int) (amount : Double)
deriving DecidableEq, Repr

/-- Run one ledger call (`none`: the call has undefined behaviour and does not return). -/
def LedgerCall.run (accounts : AccountTable) : LedgerCall → Option AccountTable
  | LedgerCall.create customer_id initial_balance index =>
      (create_account accounts customer_id initial_balance index).map Prod.fst
  | LedgerCall.dep id amount => (deposit accounts id amount).map Prod.fst
  | LedgerCall.wd id amount => (withdraw accounts id amount).map Prod.fst

/-- Run a sequence of ledger calls, left to right. -/
def runLedger (accounts : AccountTable) : List LedgerCall → Option AccountTable
  | [] => some accounts
  | c :: cs => (c.run accounts).bind (fun t => runLedger t cs)

/-- The amount a call puts into an account is not negative (the initial balance of
`create_account`, the amount of `deposit`), and a `withdraw` does not ask for `+inf`. -/
def LedgerCall.creditNonneg : LedgerCall → Prop
  | LedgerCall.create _ initial_balance _ => Double.ge initial_balance Double.zero = true
  | LedgerCall.dep _ amount => Double.ge amount Double.zero = true
  | LedgerCall.wd _ amount => amount ≠ Double.inf false

/-! ### Sample data -/

/-- A table whose first slot holds account 1 with balance 10; the other slots are empty. -/
def sampleTable : AccountTable :=
  Function.update initialize_shared_memory ⟨0, by decide⟩ ⟨1, 42, 10⟩

/-- A table whose first slot holds account 1 with balance 1e16; the other slots are empty. -/
def bigTable : AccountTable :=
  Function.update initialize_shared_memory ⟨0, by decide⟩ ⟨1, 42, Double.ofInt (10 ^ 16)⟩

/-- A table whose first slot holds account 1 with balance `+inf`; the other slots are
empty. -/
def infTable : AccountTable :=
  Function.update initialize_shared_memory ⟨0, by decide⟩ ⟨1, 42, Double.inf false⟩

/-- C: `enum ProcessStatus`. -/
inductive ProcessStatus where
  | PENDING
  | RUNNING
  | COMPLETED
  | FAILED
deriving DecidableEq, Repr

/-- C: `struct Process`. -/
structure Process where
  process_id : Int
  account_id : Int
  amount : Double
  is_deposit : Int
  status : ProcessStatus
  execution_time : Int
deriving DecidableEq, Repr

instance : Inhabited Process := ⟨⟨0, 0, 0, 0, ProcessStatus.PENDING, 0⟩⟩

/-- C: `struct ProcessTable` (`count` is never negative in the program). -/
structure ProcessTable where
  processes : Fin MAX_PROCESSES → Process
  count : Nat

/-- C: `struct ProcessTable process_table = {0};`. -/
def process_table_zero : ProcessTable :=
  ⟨fun _ => ⟨0, 0, 0, 0, ProcessStatus.PENDING, 0⟩, 0⟩

/-- C: `add_process`. -/
def add_process (t : ProcessTable) (account_id : Int) (amount : Double) (is_deposit : Int)
    (execution_time : Int) : ProcessTable :=
  if t.count < MAX_PROCESSES then
    { processes := wr t.processes (t.count : Int)
        ⟨(t.count : Int) + 1, account_id, amount, is_deposit, ProcessStatus.PENDING,
          execution_time⟩
      count := t.count + 1 }
  else t

/-- C: `update_process_status`: the first `i < count` whose record has the given
`process_id` gets the new status, and the function returns. -/
def update_process_status (t : ProcessTable) (process_id : Int) (status : ProcessStatus) :
    ProcessTable :=
  match (List.range t.count).find?
      (fun (i : Nat) => decide ((rd t.processes (i : Int)).process_id = process_id)) with
  | some i =>
      { t with processes := wr t.processes (i : Int)
                  { rd t.processes (i : Int) with status := status } }
  | none => t

/-! ### Sequences of process-table calls -/

/-- One call of `add_process` or `update_process_status`. -/
inductive TableCall where
  | add (account_id : Int) (amount : Double) (is_deposit : Int) (execution_time : Int)
  | update (process_id : Int) (status : ProcessStatus)
deriving DecidableEq, Repr

/-- Run one process-table call. -/
def TableCall.run (t : ProcessTable) : TableCall → ProcessTable
  | TableCall.add account_id amount is_deposit execution_time =>
      add_process t account_id amount is_deposit execution_time
  | TableCall.update process_id status => update_process_status t process_id status

/-- Run a sequence of process-table calls, left to right. -/
def runTable (t : ProcessTable) : List TableCall → ProcessTable
  | [] => t
  | c :: cs => runTable (c.run t) cs

/-- A process table whose `count` has reached `MAX_PROCESSES`. -/
def fullTable : ProcessTable := ⟨process_table_zero.processes, MAX_PROCESSES⟩

/-- The table invariant: `count` is within the capacity and record `k` carries id `k + 1`. -/
def TableInv (t : ProcessTable) : Prop :=
  t.count ≤ MAX_PROCESSES
  ∧ ∀ k : Fin MAX_PROCESSES, k.val < t.count → (t.processes k).process_id = (k.val : Int) + 1

/-- Two records with the same process id 7, both PENDING; count 2. -/
def twinTable : ProcessTable :=
  ⟨fun _ => ⟨7, 1, 5, 1, ProcessStatus.PENDING, 3⟩, 2⟩

/-! ## Transaction metrics and the scheduling queue -/

/-- C: `struct TransactionMetrics`. -/
structure TransactionMetrics where
  transaction_id : Int
  arrival_time : Int
  completion_time : Int
  execution_time : Int
  remaining_time : Int
  turnaround_time : Int
  waiting_time : Int
deriving DecidableEq, Repr

/-- A `struct TransactionMetrics *`: the index of the record it points to in the
metrics memory (`&metrics[i]` is `i`). -/
abbrev Ptr := Nat

/-- The metrics memory: the record each pointer points to. -/
abbrev Metrics := Ptr → TransactionMetrics

/-- C: `struct ProcessQueue`. `front` and `rear` only ever hold values produced by
`init_queue`, `enqueue` and `dequeue`, which lie in `[0, MAX_ACCOUNTS)`. -/
structure ProcessQueue where
  transactions : Fin MAX_ACCOUNTS → Ptr
  front : Fin MAX_ACCOUNTS
  rear : Fin MAX_ACCOUNTS

/-- C: `init_queue`. -/
def init_queue (q : ProcessQueue) : ProcessQueue :=
  { q with front := ⟨0, by decide⟩, rear := ⟨0, by decide⟩ }

/-- C: `is_queue_empty`. -/
def is_queue_empty (q : ProcessQueue) : Bool :=
  q.front.val == q.rear.val

/-- C: `enqueue`. -/
def enqueue (q : ProcessQueue) (transaction : Ptr) : ProcessQueue :=
  { q with
    transactions := Function.update q.transactions q.rear transaction
    rear := ⟨(q.rear.val + 1) % MAX_ACCOUNTS, Nat.mod_lt _ (by decide)⟩ }

/-- C: `dequeue`: the pointer returned and the queue left. -/
def dequeue (q : ProcessQueue) : Ptr × ProcessQueue :=
  (q.transactions q.front,
    { q with front := ⟨(q.front.val + 1) % MAX_ACCOUNTS, Nat.mod_lt _ (by decide)⟩ })

/-- C: `INT_MAX` of a 32-bit `int`. -/
abbrev INT_MAX : Int := 2147483647

/-- C: `INT_MIN` of a 32-bit `int`. -/
abbrev INT_MIN : Int := -2147483648

/-- The value a 32-bit `int` holds after an arithmetic operation whose exact result is `x`:
two's-complement wrap-around into `[INT_MIN, INT_MAX]`. (C leaves signed overflow undefined;
this is what the usual targets store.) -/
def wrap32 (x : Int) : Int := (x + 2147483648) % 4294967296 - 2147483648

/-- The state `round_robin_scheduling` works on: the queue `*q`, the metrics memory and
the clock `*current_time`. -/
structure SchedState where
  q : ProcessQueue
  metrics : Metrics
  current_time : Int

/-- One iteration of the `while` body of `round_robin_scheduling` (lines 256-268). The `int`
additions to the clock and the two `int` subtractions wrap (`wrap32`). The subtraction
`remaining_time -= TIME_QUANTUM` runs only when `remaining_time > TIME_QUANTUM`, where it
cannot overflow, and is written without a wrap. -/
def rr_body (s : SchedState) : SchedState :=
  let transaction := (dequeue s.q).1
  let q1 := (dequeue s.q).2
  let t := s.metrics transaction
  let s1 : SchedState :=
    if t.remaining_time > TIME_QUANTUM then
      { q := enqueue q1 transaction,
        metrics := Function.update s.metrics transaction
          { t with remaining_time := t.remaining_time - TIME_QUANTUM },
        current_time := wrap32 (s.current_time + TIME_QUANTUM) }
    else
      { q := q1,
        metrics := Function.update s.metrics transaction
          { t with completion_time := wrap32 (s.current_time + t.remaining_time),
                   remaining_time := 0 },
        current_time := wrap32 (s.current_time + t.remaining_time) }
  let t1 := s1.metrics transaction
  let turnaround := wrap32 (t1.completion_time - t1.arrival_time)
  { q := s1.q,
    metrics := Function.update s1.metrics transaction
      { t1 with turnaround_time := turnaround,
                waiting_time := wrap32 (turnaround - t1.execution_time) },
    current_time := s1.current_time }

/-- The `while (!is_queue_empty(q))` loop run for at most `fuel` iterations: `some` of the
state at loop exit, `none` when the loop has not exited after `fuel` iterations. -/
def rr_loop : Nat → SchedState → Option SchedState
  | 0, s => if is_queue_empty s.q then some s else none
  | fuel + 1, s => if is_queue_empty s.q then some s else rr_loop fuel (rr_body s)

/-- The entries of the queue from `front` up to `rear`, oldest first. -/
def liveFrom (transactions : Fin MAX_ACCOUNTS → Ptr) : Nat → Nat → List Ptr
  | _, 0 => []
  | i, n + 1 =>
      transactions ⟨i % MAX_ACCOUNTS, Nat.mod_lt _ (by decide)⟩ :: liveFrom transactions (i + 1) n

/-- Number of live entries of the circular queue. -/
def ProcessQueue.size (q : ProcessQueue) : Nat :=
  (q.rear.val + MAX_ACCOUNTS - q.front.val) % MAX_ACCOUNTS

/-- The live entries of the queue, oldest first. -/
def ProcessQueue.live (q : ProcessQueue) : List Ptr :=
  liveFrom q.transactions q.front.val q.size

/-- An upper bound on the number of iterations still to run: every live entry costs one
iteration plus at most its pointee's remaining time. -/
def rr_bound (s : SchedState) : Nat :=
  ((s.q.live).map (fun p => 1 + (s.metrics p).remaining_time.toNat)).sum

/-- C: `round_robin_scheduling` (its parameters `metrics` and `num_transactions` are not
used by the body). The loop is run with `rr_bound` iterations of fuel, which
`rr_loop_terminates` shows is always enough. -/
def round_robin_scheduling (s : SchedState) : Option SchedState :=
  rr_loop (rr_bound s) s

/-- The figures a record holds after its final dequeue: no time left, and the turnaround and
waiting times as the `int` results of the two subtractions. -/
def FinalMetrics (t : TransactionMetrics) : Prop :=
  t.remaining_time = 0
  ∧ t.turnaround_time = wrap32 (t.completion_time - t.arrival_time)
  ∧ t.waiting_time = wrap32 (t.turnaround_time - t.execution_time)

/-- One transaction at pointer 0 with remaining time 1, execution time 1 and arrival time -1,
queued alone; the clock is 2147483646. -/
def overflowSampleA : SchedState :=
  { q := enqueue (init_queue ⟨fun _ => 0, 0, 0⟩) 0,
    metrics := fun _ => ⟨1, -1, 0, 1, 1, 0, 0⟩,
    current_time := 2147483646 }

/-- One transaction at pointer 0 with remaining time = execution time = 5 and arrival time 0,
queued alone; the clock is 2147483646. -/
def overflowSampleB : SchedState :=
  { q := enqueue (init_queue ⟨fun _ => 0, 0, 0⟩) 0,
    metrics := fun _ => ⟨1, 0, 0, 5, 5, 0, 0⟩,
    current_time := 2147483646 }

/-- Three transactions `T1`, `T2`, `T3` at pointers 0, 1, 2: arrival time 0 and execution
time = remaining time = 5, 2, 4. -/
def rrSampleMetrics : Metrics := fun p =>
  match p with
  | 0 => ⟨1, 0, 0, 5, 5, 0, 0⟩
  | 1 => ⟨2, 0, 0, 2, 2, 0, 0⟩
  | 2 => ⟨3, 0, 0, 4, 4, 0, 0⟩
  | _ => ⟨0, 0, 0, 0, 0, 0, 0⟩

/-- The state after `init_queue`, three `enqueue` calls and clock 0. -/
def rrSample : SchedState :=
  { q := enqueue (enqueue (enqueue (init_queue ⟨fun _ => 0, 0, 0⟩) 0) 1) 2,
    metrics := rrSampleMetrics,
    current_time := 0 }

/-- A run of `enqueue` calls, one for each pointer of the list, in order. -/
def enqueueAll (q : ProcessQueue) : List Ptr → ProcessQueue
  | [] => q
  | p :: ps => enqueueAll (enqueue q p) ps

/-- A run of `k` calls of `dequeue`: the pointers returned, in call order, and the queue left. -/
def dequeueN : Nat → ProcessQueue → List Ptr × ProcessQueue
  | 0, q => ([], q)
  | k + 1, q => ((dequeue q).1 :: (dequeueN k (dequeue q).2).1, (dequeueN k (dequeue q).2).2)

/-- A queue variable before `init_queue` (its content does not matter). -/
def rawQueue : ProcessQueue := ⟨fun _ => 0, ⟨3, by decide⟩, ⟨7, by decide⟩⟩

/-- The state at the loop test of `round_robin_scheduling` after `k` iterations of the body:
`none` when the loop has exited before running `k` iterations. -/
def rr_state_at : Nat → SchedState → Option SchedState
  | 0, s => some s
  | k + 1, s => if is_queue_empty s.q then none else rr_state_at k (rr_body s)

/-- The number of quanta a remaining time asks for: max(1, ceil(remaining_time / TIME_QUANTUM)). -/
def slices (remaining_time : Int) : Int :=
  max 1 ⌈(remaining_time : ℚ) / (TIME_QUANTUM : ℚ)⌉

/-- The sum over the live entries of max(1, ceil(remaining_time / TIME_QUANTUM)). -/
def rr_iterations (s : SchedState) : Int :=
  ((s.q.live).map (fun p => slices (s.metrics p).remaining_time)).sum

/-- The sum of the remaining times of the live entries. -/
def remaining_total (s : SchedState) : Int :=
  ((s.q.live).map (fun p => (s.metrics p).remaining_time)).sum

/-- The invariant behind the bounds on completion times, for a run started at `s` in which
no `int` overflows: the live entries are distinct, were live at the start and have
non-negative remaining times; the clock has not gone back and clock + remaining work is
what it was at the start; an entry no longer live completed between the initial clock and
now. -/
def ClockInv (s t : SchedState) : Prop :=
  t.q.live.Nodup
  ∧ (∀ x ∈ t.q.live, x ∈ s.q.live)
  ∧ s.current_time ≤ t.current_time
  ∧ t.current_time + remaining_total t = s.current_time + remaining_total s
  ∧ (∀ x ∈ t.q.live, 0 ≤ (t.metrics x).remaining_time)
  ∧ ∀ x ∈ s.q.live, x ∈ t.q.live
      ∨ (s.current_time ≤ (t.metrics x).completion_time
          ∧ (t.metrics x).completion_time ≤ t.current_time)

/-- The invariant behind the bounds on waiting times, for a run started at `s` in which no
`int` overflows: every entry live at the start keeps its arrival and execution time; while
live it has at least one unit left and cannot finish before initial clock + execution time;
once finished it carries that bound together with its exact turnaround and waiting
figures. -/
def WaitInv (s t : SchedState) : Prop :=
  t.q.live.Nodup
  ∧ (∀ x ∈ t.q.live, x ∈ s.q.live)
  ∧ s.current_time ≤ t.current_time
  ∧ t.current_time + remaining_total t = s.current_time + remaining_total s
  ∧ ∀ x ∈ s.q.live,
      (t.metrics x).execution_time = (s.metrics x).execution_time
      ∧ (t.metrics x).arrival_time = (s.metrics x).arrival_time
      ∧ ((x ∈ t.q.live ∧ 1 ≤ (t.metrics x).remaining_time
            ∧ s.current_time + (s.metrics x).execution_time
                ≤ t.current_time + (t.metrics x).remaining_time)
          ∨ (x ∉ t.q.live
            ∧ s.current_time + (s.metrics x).execution_time ≤ (t.metrics x).completion_time
            ∧ (t.metrics x).turnaround_time
                = (t.metrics x).completion_time - (s.metrics x).arrival_time
            ∧ (t.metrics x).waiting_time
                = (t.metrics x).turnaround_time - (s.metrics x).execution_time))

/-! ## Transaction coordinator -/

/-- The whole program state touched by `perform_transaction`. -/
structure World where
  accounts : AccountTable
  process_table : ProcessTable
  metrics : Metrics
  current_time : Int

/-- C: `transaction_thread`. -/
def transaction_thread (accounts : AccountTable) (account_id : Int) (amount : Double)
    (is_deposit : Int) : Option (AccountTable × Notice) :=
  if is_deposit ≠ 0 then deposit accounts account_id amount
  else withdraw accounts account_id amount

/-- C: `perform_transaction`. `rand_value` is what `rand()` returned; the thread is created
and joined at once, so its body runs as a call (`none` when that call does not return). -/
def perform_transaction (w : World) (account_id : Int) (amount : Double) (is_deposit : Int)
    (transaction_id : Nat) (rand_value : Nat) : Option (World × Notice) :=
  let execution_time : Int := ((rand_value % 5 + 1 : Nat) : Int)
  let pt := add_process w.process_table account_id amount is_deposit execution_time
  let metrics := Function.update w.metrics transaction_id
    { w.metrics transaction_id with
      arrival_time := w.current_time
      execution_time := execution_time
      remaining_time := execution_time }
  match transaction_thread w.accounts account_id amount is_deposit with
  | none => none
  | some r =>
      some ({ accounts := r.1
              process_table :=
                update_process_status pt (transaction_id : Int) ProcessStatus.COMPLETED
              metrics := metrics
              current_time := wrap32 (w.current_time + (metrics transaction_id).execution_time) },
            r.2)

/-- The metrics array of `main`: `struct TransactionMetrics metrics[MAX_ACCOUNTS] = {0}`. -/
def zeroMetrics : Metrics := fun _ => ⟨0, 0, 0, 0, 0, 0, 0⟩

/-- The program state at the start of `main`: nothing created yet, clock 0. -/
def startWorld : World := ⟨initialize_shared_memory, process_table_zero, zeroMetrics, 0⟩

/-- The program state after `main` created account 1 (`index = 1`), clock 0. -/
def sampleWorld : World := ⟨sampleTable, process_table_zero, zeroMetrics, 0⟩

/-! # Lemmas and theorems -/

/-! ## Basic facts about `rd` / `wr` -/

theorem rd_slot {α : Type} [Inhabited α] {n : Nat} (a : Fin n → α) (k : Fin n) :
    rd a (k : Int) = a k := by
  have hk := k.isLt
  unfold rd
  rw [dif_pos (by omega)]
  congr

theorem wr_slot {α : Type} {n : Nat} (a : Fin n → α) (k : Fin n) (v : α) :
    wr a (k : Int) v = Function.update a k v := by
  have hk := k.isLt
  unfold wr
  rw [dif_pos (by omega)]
  congr

/-- An in-range account id names a slot. -/
theorem slot_of_id (account_id : Int) (h : account_id > 0 ∧ account_id ≤ (MAX_ACCOUNTS : Int)) :
    ∃ k : Fin MAX_ACCOUNTS, account_id - 1 = (k : Int) := by
  refine ⟨⟨(account_id - 1).toNat, by omega⟩, ?_⟩
  simp only []
  omega

/-! ## Facts about `double` arithmetic -/

theorem scaled_not (s : Bool) (m : Nat) (e e0 : Int) :
    scaled (!s) m e e0 = - scaled s m e e0 := by
  cases s <;> simp [scaled]

theorem scaled_nonneg (s : Bool) (m : Nat) (e e0 : Int) (h : s = false ∨ m = 0) :
    0 ≤ scaled s m e e0 := by
  rcases h with h | h
  · subst h
    simp only [scaled, Bool.false_eq_true, if_false]
    exact Int.natCast_nonneg _
  · subst h
    cases s <;> simp [scaled]

theorem ge_zero_num (s : Bool) (m : Nat) (e : Int) :
    Double.ge (Double.num s m e) Double.zero = true ↔ (s = false ∨ m = 0) := by
  simp only [Double.ge, Double.zero, decide_eq_true_eq]
  constructor
  · intro h
    cases s with
    | false => exact Or.inl rfl
    | true =>
      right
      simp only [scaled, if_true, Bool.false_eq_true, if_false, Nat.zero_mul,
        Int.natCast_zero] at h
      have h2 : ((m * 2 ^ (e - min e (-1074)).toNat : Nat) : Int) = 0 := by
        have := Int.natCast_nonneg (m * 2 ^ (e - min e (-1074)).toNat)
        omega
      have h3 : m * 2 ^ (e - min e (-1074)).toNat = 0 := by exact_mod_cast h2
      rcases Nat.mul_eq_zero.1 h3 with h4 | h4
      · exact h4
      · exact absurd h4 (by positivity)
  · intro h
    have h1 := scaled_nonneg s m e (min e (-1074)) h
    have h2 : scaled false 0 (-1074) (min e (-1074)) = 0 := by simp [scaled]
    rw [h2]
    exact h1

theorem pack_cases (neg : Bool) (q : Nat) (e : Int) :
    pack neg q e = Double.inf neg ∨ ∃ q1 e1, pack neg q e = Double.num neg q1 e1 := by
  unfold pack
  split
  · split
    · exact Or.inl rfl
    · exact Or.inr ⟨_, _, rfl⟩
  · split
    · exact Or.inl rfl
    · exact Or.inr ⟨_, _, rfl⟩

/-- Rounding keeps the sign and never gives a NaN. -/
theorem roundPack_cases (neg : Bool) (m : Nat) (e : Int) :
    roundPack neg m e = Double.inf neg ∨ ∃ q1 e1, roundPack neg m e = Double.num neg q1 e1 := by
  unfold roundPack
  simp only
  split
  · exact pack_cases _ _ _
  · exact pack_cases _ _ _

theorem roundPack_nonneg (m : Nat) (e : Int) :
    Double.ge (roundPack false m e) Double.zero = true := by
  rcases roundPack_cases false m e with h | ⟨q1, e1, h⟩
  · rw [h]
    rfl
  · rw [h]
    exact (ge_zero_num false q1 e1).2 (Or.inl rfl)

/-- The result of an addition of numbers whose exact sum is not negative is not negative. -/
theorem sum_result_nonneg (s : Bool) (sum : Int) (e : Int) (h : 0 ≤ sum) :
    Double.ge (if sum = 0 then Double.num s 0 (-1074)
      else roundPack (decide (sum < 0)) sum.natAbs e) Double.zero = true := by
  split
  · exact (ge_zero_num s 0 (-1074)).2 (Or.inr rfl)
  · have : decide (sum < 0) = false := by
      simp only [decide_eq_false_iff_not]
      omega
    rw [this]
    exact roundPack_nonneg _ _

/-- The sum of two `double`s that are `>= 0` is `>= 0` (it may be `+inf`). -/
theorem Double.add_nonneg (b a : Double) (hb : Double.ge b Double.zero = true)
    (ha : Double.ge a Double.zero = true) : Double.ge (Double.add b a) Double.zero = true := by
  cases b with
  | nan => simp [Double.ge] at hb
  | inf s =>
    cases a with
    | nan => simp [Double.ge, Double.zero] at ha
    | inf t =>
      have hs : s = false := by simpa [Double.ge, Double.zero] using hb
      have ht : t = false := by simpa [Double.ge, Double.zero] using ha
      subst hs
      subst ht
      rfl
    | num t m e =>
      have hs : s = false := by simpa [Double.ge, Double.zero] using hb
      subst hs
      rfl
  | num s m e =>
    cases a with
    | nan => simp [Double.ge, Double.zero] at ha
    | inf t =>
      have ht : t = false := by simpa [Double.ge, Double.zero] using ha
      subst ht
      rfl
    | num t m2 e2 =>
      have h1 := scaled_nonneg s m e (min e e2) ((ge_zero_num s m e).1 hb)
      have h2 := scaled_nonneg t m2 e2 (min e e2) ((ge_zero_num t m2 e2).1 ha)
      simp only [Double.add]
      exact sum_result_nonneg _ _ _ (by omega)

/-- When `b >= a` holds, the difference `b - a` is `>= 0`, unless `b` and `a` are the same
infinity (the difference is then a NaN). -/
theorem Double.sub_nonneg (b a : Double) (h : Double.ge b a = true)
    (hinf : ∀ s, ¬ (b = Double.inf s ∧ a = Double.inf s)) :
    Double.ge (Double.sub b a) Double.zero = true := by
  cases b with
  | nan => simp [Double.ge] at h
  | inf s =>
    cases a with
    | nan => simp [Double.ge] at h
    | inf t =>
      have hst : s ≠ t := fun e => hinf s ⟨rfl, by rw [e]⟩
      cases s <;> cases t <;> simp_all [Double.ge, Double.sub, Double.neg, Double.add,
        Double.zero]
    | num t m e =>
      have hs : s = false := by simpa [Double.ge] using h
      subst hs
      rfl
  | num s m e =>
    cases a with
    | nan => simp [Double.ge] at h
    | inf t =>
      have ht : t = true := by simpa [Double.ge] using h
      subst ht
      rfl
    | num t m2 e2 =>
      simp only [Double.ge, decide_eq_true_eq] at h
      simp only [Double.sub, Double.neg, Double.add, scaled_not]
      exact sum_result_nonneg _ _ _ (by omega)

/-- `a > b` excludes `b >= a`. -/
theorem Double.not_ge_of_gt (a b : Double) (h : Double.gt a b = true) :
    Double.ge b a = false := by
  cases a with
  | nan => simp [Double.gt] at h
  | inf s =>
    cases b with
    | nan => simp [Double.gt] at h
    | inf t => cases s <;> cases t <;> simp_all [Double.gt, Double.ge]
    | num t m e =>
      have hs : s = false := by simpa [Double.gt] using h
      subst hs
      rfl
  | num s m e =>
    cases b with
    | nan => simp [Double.gt] at h
    | inf t =>
      have ht : t = true := by simpa [Double.gt] using h
      subst ht
      rfl
    | num t m2 e2 =>
      simp only [Double.gt, decide_eq_true_eq] at h
      simp only [Double.ge, decide_eq_false_iff_not, min_comm e2 e]
      omega

/-! ## The ledger operations, branch by branch -/

theorem fin_cast_inj (j k : Fin MAX_ACCOUNTS) : ((j : Int) + 1 = (k : Int) + 1) ↔ j = k := by
  constructor
  · intro h
    apply Fin.ext
    omega
  · intro h
    rw [h]

/-- The guard of `deposit` / `withdraw` holds exactly for the id of an allocated slot. -/
theorem guard_iff (accounts : AccountTable) (account_id : Int) :
    (account_id > 0 ∧ account_id ≤ (MAX_ACCOUNTS : Int)
      ∧ (rd accounts (account_id - 1)).account_id ≠ 0) ↔
    ∃ k : Fin MAX_ACCOUNTS, account_id = (k : Int) + 1 ∧ (accounts k).account_id ≠ 0 := by
  constructor
  · rintro ⟨h1, h2, h3⟩
    obtain ⟨k, hk⟩ := slot_of_id account_id ⟨h1, h2⟩
    rw [hk, rd_slot] at h3
    exact ⟨k, by omega, h3⟩
  · rintro ⟨k, rfl, h3⟩
    have hk := k.isLt
    have e : (k : Int) + 1 - 1 = (k : Int) := by omega
    rw [e, rd_slot]
    exact ⟨by omega, by simp only [MAX_ACCOUNTS] at hk ⊢; omega, h3⟩

theorem deposit_fail (accounts : AccountTable) (account_id : Int) (amount : Double)
    (h : ¬ (account_id > 0 ∧ account_id ≤ (MAX_ACCOUNTS : Int)
      ∧ (rd accounts (account_id - 1)).account_id ≠ 0)) :
    deposit accounts account_id amount
      = some (accounts, Notice.deposit_invalid_account account_id) := by
  unfold deposit
  rw [if_neg h]

theorem withdraw_fail (accounts : AccountTable) (account_id : Int) (amount : Double)
    (h : ¬ (account_id > 0 ∧ account_id ≤ (MAX_ACCOUNTS : Int)
      ∧ (rd accounts (account_id - 1)).account_id ≠ 0)) :
    withdraw accounts account_id amount
      = some (accounts, Notice.withdrawal_invalid_account account_id) := by
  unfold withdraw
  rw [if_neg h]

/-- The branches of `deposit`: invalid account; success; or the message overruns `msg`. -/
theorem deposit_cases (accounts : AccountTable) (account_id : Int) (amount : Double) :
    (¬ (account_id > 0 ∧ account_id ≤ (MAX_ACCOUNTS : Int)
        ∧ (rd accounts (account_id - 1)).account_id ≠ 0)
      ∧ deposit accounts account_id amount
          = some (accounts, Notice.deposit_invalid_account account_id))
    ∨ ∃ k : Fin MAX_ACCOUNTS, account_id = (k : Int) + 1 ∧ (accounts k).account_id ≠ 0
        ∧ (deposit accounts account_id amount
              = some (Function.update accounts k
                    { accounts k with balance := Double.add (accounts k).balance amount },
                  Notice.deposit_completed amount account_id)
            ∨ deposit accounts account_id amount = none) := by
  by_cases g : (account_id > 0 ∧ account_id ≤ (MAX_ACCOUNTS : Int)
      ∧ (rd accounts (account_id - 1)).account_id ≠ 0)
  · right
    obtain ⟨k, hk, hj⟩ := (guard_iff accounts account_id).1 g
    refine ⟨k, hk, hj, ?_⟩
    have e : account_id - 1 = (k : Int) := by omega
    unfold deposit
    rw [if_pos g, e, rd_slot, wr_slot]
    split
    · exact Or.inl rfl
    · exact Or.inr rfl
  · exact Or.inl ⟨g, deposit_fail accounts account_id amount g⟩

/-- The branches of `withdraw`: invalid account; insufficient funds; success; or the message
overruns `msg`. -/
theorem withdraw_cases (accounts : AccountTable) (account_id : Int) (amount : Double) :
    (¬ (account_id > 0 ∧ account_id ≤ (MAX_ACCOUNTS : Int)
        ∧ (rd accounts (account_id - 1)).account_id ≠ 0)
      ∧ withdraw accounts account_id amount
          = some (accounts, Notice.withdrawal_invalid_account account_id))
    ∨ ∃ k : Fin MAX_ACCOUNTS, account_id = (k : Int) + 1 ∧ (accounts k).account_id ≠ 0
        ∧ ((Double.ge (accounts k).balance amount = false
              ∧ withdraw accounts account_id amount
                  = some (accounts, Notice.withdrawal_insufficient_funds account_id))
            ∨ (Double.ge (accounts k).balance amount = true
              ∧ (withdraw accounts account_id amount
                    = some (Function.update accounts k
                        { accounts k with
                          balance := Double.sub (accounts k).balance amount },
                      Notice.withdrawal_completed amount account_id)
                  ∨ withdraw accounts account_id amount = none))) := by
  by_cases g : (account_id > 0 ∧ account_id ≤ (MAX_ACCOUNTS : Int)
      ∧ (rd accounts (account_id - 1)).account_id ≠ 0)
  · right
    obtain ⟨k, hk, hj⟩ := (guard_iff accounts account_id).1 g
    refine ⟨k, hk, hj, ?_⟩
    have e : account_id - 1 = (k : Int) := by omega
    unfold withdraw
    rw [if_pos g, e, rd_slot, wr_slot]
    cases hb : Double.ge (accounts k).balance amount with
    | false =>
      left
      simp
    | true =>
      right
      refine ⟨rfl, ?_⟩
      simp only [if_true]
      split
      · exact Or.inl rfl
      · exact Or.inr rfl
  · exact Or.inl ⟨g, withdraw_fail accounts account_id amount g⟩

/-! ## Balance accounting -/

/-- One call that returns leaves in slot `k` the balance `balanceAfter` computes from the
outcome of the call. -/
theorem run_step (accounts : AccountTable) (c : TxCall) (r : AccountTable × Notice)
    (h : c.run accounts = some r) (k : Fin MAX_ACCOUNTS) :
    (r.1 k).balance = balanceAfter k (accounts k).balance r.2 := by
  cases c with
  | dep id amount =>
    simp only [TxCall.run] at h
    rcases deposit_cases accounts id amount with ⟨_, h1⟩ | ⟨j, hj, _, h1 | h1⟩
    · rw [h1, Option.some.injEq] at h
      rw [← h]
      rfl
    · rw [h1, Option.some.injEq] at h
      rw [← h]
      simp only [balanceAfter, hj, fin_cast_inj]
      by_cases e : j = k
      · subst e
        simp
      · rw [Function.update_noteq (Ne.symm e), if_neg e]
    · rw [h1] at h
      cases h
  | wd id amount =>
    simp only [TxCall.run] at h
    rcases withdraw_cases accounts id amount with
      ⟨_, h1⟩ | ⟨j, hj, _, ⟨_, h1⟩ | ⟨_, h1 | h1⟩⟩
    · rw [h1, Option.some.injEq] at h
      rw [← h]
      rfl
    · rw [h1, Option.some.injEq] at h
      rw [← h]
      rfl
    · rw [h1, Option.some.injEq] at h
      rw [← h]
      simp only [balanceAfter, hj, fin_cast_inj]
      by_cases e : j = k
      · subst e
        simp
      · rw [Function.update_noteq (Ne.symm e), if_neg e]
    · rw [h1] at h
      cases h

/-- A call addressed to another account leaves the record of slot `k` as it was. -/
theorem run_frame (accounts : AccountTable) (c : TxCall) (r : AccountTable × Notice)
    (k : Fin MAX_ACCOUNTS) (ht : c.target ≠ (k : Int) + 1) (h : c.run accounts = some r) :
    r.1 k = accounts k := by
  cases c with
  | dep id amount =>
    simp only [TxCall.run, TxCall.target] at h ht
    rcases deposit_cases accounts id amount with ⟨_, h1⟩ | ⟨j, hj, _, h1 | h1⟩
    · rw [h1, Option.some.injEq] at h
      rw [← h]
    · rw [h1, Option.some.injEq] at h
      rw [← h]
      have hjk : k ≠ j := fun e => ht (by rw [hj, e])
      simp only [Function.update_noteq hjk]
    · rw [h1] at h
      cases h
  | wd id amount =>
    simp only [TxCall.run, TxCall.target] at h ht
    rcases withdraw_cases accounts id amount with
      ⟨_, h1⟩ | ⟨j, hj, _, ⟨_, h1⟩ | ⟨_, h1 | h1⟩⟩
    · rw [h1, Option.some.injEq] at h
      rw [← h]
    · rw [h1, Option.some.injEq] at h
      rw [← h]
    · rw [h1, Option.some.injEq] at h
      rw [← h]
      have hjk : k ≠ j := fun e => ht (by rw [hj, e])
      simp only [Function.update_noteq hjk]
    · rw [h1] at h
      cases h

/-- A replay that returns leaves in slot `k` the balance computed from the outcomes. -/
theorem replay_balance (calls : List TxCall) (k : Fin MAX_ACCOUNTS) :
    ∀ (accounts t : AccountTable) (outs : List Notice),
      replay accounts calls = some (t, outs) →
      (t k).balance = balanceAfterAll k (accounts k).balance outs := by
  induction calls with
  | nil =>
    intro accounts t outs h
    simp only [replay, Option.some.injEq, Prod.mk.injEq] at h
    rw [← h.1, ← h.2]
    rfl
  | cons c cs ih =>
    intro accounts t outs h
    simp only [replay] at h
    cases hr : c.run accounts with
    | none => simp [hr] at h
    | some r =>
      rw [hr] at h
      simp only at h
      cases hr2 : replay r.1 cs with
      | none => simp [hr2] at h
      | some r2 =>
        rw [hr2] at h
        simp only [Option.some.injEq, Prod.mk.injEq] at h
        rw [← h.1, ← h.2]
        simp only [balanceAfterAll]
        rw [← run_step accounts c r hr k]
        exact ih r.1 r2.1 r2.2 (by rw [hr2])

/-- When every `double` operation on the balance is exact, the final balance is the initial
balance plus the deposits minus the withdrawals that succeeded on the account. -/
theorem exact_balance (k : Fin MAX_ACCOUNTS) (outs : List Notice) :
    ∀ b : Double, exactRun k b outs →
      (balanceAfterAll k b outs).toRat
        = b.toRat + successfulDeposits k outs - successfulWithdrawals k outs := by
  induction outs with
  | nil =>
    intro b _
    simp [balanceAfterAll, successfulDeposits, successfulWithdrawals]
  | cons out outs ih =>
    intro b h
    obtain ⟨h1, h2⟩ := h
    have hstep : (balanceAfter k b out).toRat = b.toRat + depositedBy k out - withdrawnBy k out := by
      cases out with
      | deposit_completed amount id =>
        simp only [balanceAfter, depositedBy, withdrawnBy, exactStep] at h1 ⊢
        split
        · rename_i e
          rw [(h1 e).2.2.2]
          ring
        · ring
      | withdrawal_completed amount id =>
        simp only [balanceAfter, depositedBy, withdrawnBy, exactStep] at h1 ⊢
        split
        · rename_i e
          rw [(h1 e).2.2.2]
          ring
        · ring
      | deposit_invalid_account id => simp [balanceAfter, depositedBy, withdrawnBy]
      | withdrawal_insufficient_funds id => simp [balanceAfter, depositedBy, withdrawnBy]
      | withdrawal_invalid_account id => simp [balanceAfter, depositedBy, withdrawnBy]
    simp only [balanceAfterAll, successfulDeposits, successfulWithdrawals, List.map_cons,
      List.sum_cons] at ih ⊢
    rw [ih (balanceAfter k b out) h2, hstep]
    ring

/-! ## Claims about the ledger -/

/-- C1 (as stated, refuted). Account 1 holds 1e16 and a deposit of 1 succeeds on it: the
`double` sum 1e16 + 1 rounds back to 1e16, so the final balance is the initial balance and
not the initial balance plus the deposit. -/
theorem replay_balance_rounding :
    ((bigTable ⟨0, by decide⟩).balance.valid = true ∧ (1 : Double).valid = true)
    ∧ ∃ t : AccountTable,
        replay bigTable [TxCall.dep 1 1] = some (t, [Notice.deposit_completed 1 1])
        ∧ (t ⟨0, by decide⟩).balance = (bigTable ⟨0, by decide⟩).balance
        ∧ (t ⟨0, by decide⟩).balance.toRat
            ≠ (bigTable ⟨0, by decide⟩).balance.toRat
              + successfulDeposits ⟨0, by decide⟩ [Notice.deposit_completed 1 1]
              - successfulWithdrawals ⟨0, by decide⟩ [Notice.deposit_completed 1 1] := by
  obtain ⟨t, ht, hbal⟩ : ∃ t : AccountTable,
      replay bigTable [TxCall.dep 1 1] = some (t, [Notice.deposit_completed 1 1])
      ∧ (t ⟨0, by decide⟩).balance = (bigTable ⟨0, by decide⟩).balance :=
    ⟨_, rfl, by decide⟩
  refine ⟨by decide, t, ht, hbal, ?_⟩
  rw [hbal]
  have h2 : (1 : Double) = Double.num false (2 ^ 52) (-52) := by decide
  have e : (((1 : Int) = ((⟨0, by decide⟩ : Fin MAX_ACCOUNTS) : Int) + 1)) := by decide
  simp only [successfulDeposits, successfulWithdrawals, depositedBy, withdrawnBy,
    List.map_cons, List.map_nil, List.sum_cons, List.sum_nil, if_pos e]
  intro h
  have h3 : (1 : Double).toRat = 0 := by linarith
  rw [h2] at h3
  norm_num [Double.toRat] at h3

/-- C1 (amended). For every initial account table and every finite sequence of deposit and
withdraw calls (any account ids, any amounts) that returns, the final balance of each
account is its initial balance after the `double` additions of the deposits and the
`double` subtractions of the withdrawals that succeeded on that account, applied in call
order; when each of these operations is exact, it is the initial balance plus the sum of
those deposits minus the sum of those withdrawals; and a call addressed to another account
never changes the record of this account. -/
theorem replay_balance_accounting (accounts t : AccountTable) (calls : List TxCall)
    (outs : List Notice) (h : replay accounts calls = some (t, outs))
    (k : Fin MAX_ACCOUNTS) :
    (t k).balance = balanceAfterAll k (accounts k).balance outs
    ∧ (exactRun k (accounts k).balance outs →
        (t k).balance.toRat
          = (accounts k).balance.toRat + successfulDeposits k outs
            - successfulWithdrawals k outs)
    ∧ ∀ (a : AccountTable) (c : TxCall) (r : AccountTable × Notice),
        c.target ≠ (k : Int) + 1 → c.run a = some r → r.1 k = a k := by
  have hb := replay_balance calls k accounts t outs h
  refine ⟨hb, ?_, fun a c r ht hr => run_frame a c r k ht hr⟩
  intro he
  rw [hb]
  exact exact_balance k outs _ he

/-- C1 (amended), instance: account 1 starts at 10; a deposit of 5, a refused withdrawal of
20, a withdrawal of 3 and a deposit to the empty account 2 leave it at 12. -/
theorem replay_balance_accounting_witness :
    ∃ (t : AccountTable) (outs : List Notice),
      replay sampleTable [TxCall.dep 1 5, TxCall.wd 1 20, TxCall.wd 1 3, TxCall.dep 2 7]
        = some (t, outs)
      ∧ outs = [Notice.deposit_completed 5 1, Notice.withdrawal_insufficient_funds 1,
          Notice.withdrawal_completed 3 1, Notice.deposit_invalid_account 2]
      ∧ (t ⟨0, by decide⟩).balance
          = balanceAfterAll ⟨0, by decide⟩ (sampleTable ⟨0, by decide⟩).balance outs
      ∧ (t ⟨0, by decide⟩).balance = 12 :=
  ⟨_, _, rfl, rfl,
    (replay_balance_accounting sampleTable _
      [TxCall.dep 1 5, TxCall.wd 1 20, TxCall.wd 1 3, TxCall.dep 2 7] _ rfl
      ⟨0, by decide⟩).1,
    by decide⟩

/-- C2. For every account table, every allocated account id in [1, MAX_ACCOUNTS] and every
amount strictly greater than that account's balance, `withdraw` takes the insufficient-funds
branch and returns the account table unchanged. -/
theorem withdraw_insufficient_funds (accounts : AccountTable) (account_id : Int)
    (amount : Double)
    (hr : 1 ≤ account_id ∧ account_id ≤ (MAX_ACCOUNTS : Int))
    (ha : (rd accounts (account_id - 1)).account_id ≠ 0)
    (hb : Double.gt amount (rd accounts (account_id - 1)).balance = true) :
    withdraw accounts account_id amount =
      some (accounts, Notice.withdrawal_insufficient_funds account_id) := by
  unfold withdraw
  rw [if_pos ⟨by omega, hr.2, ha⟩, Double.not_ge_of_gt _ _ hb]
  simp

/-- C2, instance: withdrawing 11 from account 1, which holds 10. -/
theorem withdraw_insufficient_funds_witness :
    withdraw sampleTable 1 11 = some (sampleTable, Notice.withdrawal_insufficient_funds 1) :=
  withdraw_insufficient_funds sampleTable 1 11 (by decide) (by decide) (by decide)

/-- C3. For every account table, every amount and every account id that is outside
[1, MAX_ACCOUNTS] or whose slot is unallocated (account_id field 0), both `deposit` and
`withdraw` take the invalid-account branch and return the account table unchanged. -/
theorem invalid_account_rejected (accounts : AccountTable) (account_id : Int)
    (amount : Double)
    (h : account_id < 1 ∨ account_id > (MAX_ACCOUNTS : Int)
      ∨ (rd accounts (account_id - 1)).account_id = 0) :
    deposit accounts account_id amount
      = some (accounts, Notice.deposit_invalid_account account_id)
    ∧ withdraw accounts account_id amount
        = some (accounts, Notice.withdrawal_invalid_account account_id) := by
  have g : ¬ (account_id > 0 ∧ account_id ≤ (MAX_ACCOUNTS : Int)
      ∧ (rd accounts (account_id - 1)).account_id ≠ 0) := by
    rintro ⟨h1, h2, h3⟩
    rcases h with h | h | h
    · omega
    · omega
    · exact h3 h
  exact ⟨deposit_fail accounts account_id amount g, withdraw_fail accounts account_id amount g⟩

/-- C3, instances: the unallocated account id 2 and the out-of-range account id 11. -/
theorem invalid_account_rejected_witness :
    (deposit sampleTable 2 5 = some (sampleTable, Notice.deposit_invalid_account 2)
      ∧ withdraw sampleTable 2 5 = some (sampleTable, Notice.withdrawal_invalid_account 2))
    ∧ (deposit sampleTable 11 5 = some (sampleTable, Notice.deposit_invalid_account 11)
      ∧ withdraw sampleTable 11 5
          = some (sampleTable, Notice.withdrawal_invalid_account 11)) :=
  ⟨invalid_account_rejected sampleTable 2 5 (by decide),
   invalid_account_rejected sampleTable 11 5 (by decide)⟩

/-- C7 (as stated, refuted). Account 1 holds `+inf` and `+inf` is withdrawn: `inf >= inf`
holds, the success branch is taken and the new balance `inf - inf` is a NaN, which is not
`>= 0`. And with balance 1e16 a withdrawal of -1 succeeds and leaves the balance at 1e16,
which is not the old balance minus the amount. -/
theorem withdraw_success_not_nonneg :
    (∃ t : AccountTable,
        withdraw infTable 1 (Double.inf false)
          = some (t, Notice.withdrawal_completed (Double.inf false) 1)
        ∧ (t ⟨0, by decide⟩).balance = Double.nan
        ∧ Double.ge (t ⟨0, by decide⟩).balance Double.zero = false)
    ∧ ((-1 : Double).valid = true
      ∧ ∃ t : AccountTable,
        withdraw bigTable 1 (-1) = some (t, Notice.withdrawal_completed (-1) 1)
        ∧ (t ⟨0, by decide⟩).balance = (bigTable ⟨0, by decide⟩).balance
        ∧ (t ⟨0, by decide⟩).balance.toRat
            ≠ (bigTable ⟨0, by decide⟩).balance.toRat - (-1 : Double).toRat) := by
  obtain ⟨t, ht, hbal⟩ : ∃ t : AccountTable,
      withdraw bigTable 1 (-1) = some (t, Notice.withdrawal_completed (-1) 1)
      ∧ (t ⟨0, by decide⟩).balance = (bigTable ⟨0, by decide⟩).balance :=
    ⟨_, rfl, by decide⟩
  refine ⟨⟨_, rfl, by decide, by decide⟩, by decide, t, ht, hbal, ?_⟩
  rw [hbal]
  have h2 : (-1 : Double) = Double.num true (2 ^ 52) (-52) := by decide
  intro h
  have h3 : (-1 : Double).toRat = 0 := by linarith
  rw [h2] at h3
  norm_num [Double.toRat] at h3

/-- C7 (amended). For every account table, every allocated account id and every amount (of
either sign), if `withdraw` takes its success branch and returns, then the balance was
`>=` the amount, the account's new balance is the `double` difference old balance - amount,
and it is `>= 0` unless the old balance and the amount are the same infinity. -/
theorem withdraw_success_balance (accounts t : AccountTable) (account_id : Int)
    (amount : Double)
    (hr : 1 ≤ account_id ∧ account_id ≤ (MAX_ACCOUNTS : Int))
    (ha : (rd accounts (account_id - 1)).account_id ≠ 0)
    (hs : withdraw accounts account_id amount
            = some (t, Notice.withdrawal_completed amount account_id)) :
    Double.ge (rd accounts (account_id - 1)).balance amount = true
    ∧ (rd t (account_id - 1)).balance
        = Double.sub (rd accounts (account_id - 1)).balance amount
    ∧ ((∀ s, ¬ ((rd accounts (account_id - 1)).balance = Double.inf s
              ∧ amount = Double.inf s)) →
        Double.ge (rd t (account_id - 1)).balance Double.zero = true) := by
  rcases withdraw_cases accounts account_id amount with
    ⟨g, _⟩ | ⟨k, hk, _, ⟨_, h1⟩ | ⟨hge, h1 | h1⟩⟩
  · exact absurd ⟨by omega, hr.2, ha⟩ g
  · rw [h1] at hs
    simp at hs
  · have e : account_id - 1 = (k : Int) := by omega
    rw [h1, Option.some.injEq, Prod.mk.injEq] at hs
    rw [e, rd_slot, rd_slot, ← hs.1]
    simp only [Function.update_same]
    exact ⟨hge, trivial, fun hinf => Double.sub_nonneg _ _ hge hinf⟩
  · rw [h1] at hs
    cases hs

/-- C7 (amended), instance: withdrawing 4 from account 1, which holds 10, leaves 6. -/
theorem withdraw_success_balance_witness :
    ∃ t : AccountTable, withdraw sampleTable 1 4 = some (t, Notice.withdrawal_completed 4 1)
      ∧ (rd t (1 - 1)).balance = Double.sub (rd sampleTable (1 - 1)).balance 4
      ∧ (rd t (1 - 1)).balance = 6
      ∧ Double.ge (rd t (1 - 1)).balance Double.zero = true :=
  ⟨_, rfl,
    (withdraw_success_balance sampleTable _ 1 4 (by decide) (by decide) rfl).2.1,
    by decide,
    (withdraw_success_balance sampleTable _ 1 4 (by decide) (by decide) rfl).2.2
      (by decide)⟩

/-- C9 (the code at the failing input). On the zero-initialised table, where slot 0 is
unallocated, `check_balance` for account id 1 takes the balance branch and reports
balance 0 instead of the invalid-account error. -/
theorem check_balance_unallocated_reports_balance :
    (initialize_shared_memory ⟨0, by decide⟩).account_id = 0
    ∧ check_balance initialize_shared_memory 1 = BalanceReport.balance 1 Double.zero
    ∧ (deposit initialize_shared_memory 1 5).map Prod.snd
        = some (Notice.deposit_invalid_account 1) := by
  decide

/-- C10. For every account table, customer id and initial balance: if 0 <= slot <
MAX_ACCOUNTS, `create_account` returns slot + 1, sets the record at that slot to
(slot + 1, customer id, initial balance) and leaves every other slot unchanged; if
slot >= MAX_ACCOUNTS it returns -1 and leaves the whole table unchanged. -/
theorem create_account_spec (accounts : AccountTable) (customer_id : Int)
    (initial_balance : Double) (index : Int) :
    (0 ≤ index ∧ index < (MAX_ACCOUNTS : Int) →
      ∃ t : AccountTable,
        create_account accounts customer_id initial_balance index = some (t, index + 1)
        ∧ rd t index = ⟨index + 1, customer_id, initial_balance⟩
        ∧ ∀ j : Fin MAX_ACCOUNTS, (j : Int) ≠ index → t j = accounts j)
    ∧ (index ≥ (MAX_ACCOUNTS : Int) →
        create_account accounts customer_id initial_balance index = some (accounts, -1)) := by
  constructor
  · rintro ⟨h0, h1⟩
    obtain ⟨k, hk⟩ : ∃ k : Fin MAX_ACCOUNTS, index = (k : Int) :=
      ⟨⟨index.toNat, by omega⟩, by simp only []; omega⟩
    refine ⟨Function.update accounts k ⟨index + 1, customer_id, initial_balance⟩, ?_, ?_, ?_⟩
    · unfold create_account
      rw [if_pos h1, if_pos h0, hk, wr_slot]
    · rw [hk, rd_slot, Function.update_same]
    · intro j hj
      have : j ≠ k := fun e => hj (by rw [e, hk])
      rw [Function.update_noteq this]
  · intro h
    unfold create_account
    rw [if_neg (by omega)]

/-- C10, instances: slot 3 (created) and slot 10 (refused). -/
theorem create_account_spec_witness :
    (∃ t : AccountTable,
        create_account sampleTable 7 25 3 = some (t, 3 + 1)
        ∧ rd t 3 = ⟨3 + 1, 7, 25⟩
        ∧ ∀ j : Fin MAX_ACCOUNTS, (j : Int) ≠ 3 → t j = sampleTable j)
    ∧ create_account sampleTable 7 25 10 = some (sampleTable, -1) :=
  ⟨(create_account_spec sampleTable 7 25 3).1 (by decide),
   (create_account_spec sampleTable 7 25 10).2 (by decide)⟩

/-! ## Non-negative balances -/

/-- Every operation keeps all balances `>= 0` when what it credits is `>= 0` and no
withdrawal asks for `+inf`. -/
theorem run_keeps_nonneg (accounts t : AccountTable) (c : LedgerCall)
    (hc : c.creditNonneg) (hrun : c.run accounts = some t)
    (h : ∀ k, Double.ge (accounts k).balance Double.zero = true) :
    ∀ k, Double.ge (t k).balance Double.zero = true := by
  intro k
  cases c with
  | create customer_id initial_balance index =>
    simp only [LedgerCall.run, create_account] at hrun
    simp only [LedgerCall.creditNonneg] at hc
    split at hrun
    · split at hrun
      · rename_i h1 h0
        obtain ⟨j, hj⟩ : ∃ j : Fin MAX_ACCOUNTS, index = (j : Int) :=
          ⟨⟨index.toNat, by omega⟩, by simp only []; omega⟩
        simp only [Option.map_some', Option.some.injEq] at hrun
        rw [← hrun, hj, wr_slot]
        by_cases e : k = j
        · subst e
          simpa using hc
        · rw [Function.update_noteq e]
          exact h k
      · simp at hrun
    · simp only [Option.map_some', Option.some.injEq] at hrun
      rw [← hrun]
      exact h k
  | dep id amount =>
    simp only [LedgerCall.run] at hrun
    simp only [LedgerCall.creditNonneg] at hc
    rcases deposit_cases accounts id amount with ⟨_, h1⟩ | ⟨j, _, _, h1 | h1⟩
    · rw [h1] at hrun
      simp only [Option.map_some', Option.some.injEq] at hrun
      rw [← hrun]
      exact h k
    · rw [h1] at hrun
      simp only [Option.map_some', Option.some.injEq] at hrun
      rw [← hrun]
      by_cases e : k = j
      · subst e
        simp only [Function.update_same]
        exact Double.add_nonneg _ _ (h k) hc
      · rw [Function.update_noteq e]
        exact h k
    · rw [h1] at hrun
      simp at hrun
  | wd id amount =>
    simp only [LedgerCall.run] at hrun
    simp only [LedgerCall.creditNonneg] at hc
    rcases withdraw_cases accounts id amount with
      ⟨_, h1⟩ | ⟨j, _, _, ⟨_, h1⟩ | ⟨hge, h1 | h1⟩⟩
    · rw [h1] at hrun
      simp only [Option.map_some', Option.some.injEq] at hrun
      rw [← hrun]
      exact h k
    · rw [h1] at hrun
      simp only [Option.map_some', Option.some.injEq] at hrun
      rw [← hrun]
      exact h k
    · rw [h1] at hrun
      simp only [Option.map_some', Option.some.injEq] at hrun
      rw [← hrun]
      by_cases e : k = j
      · subst e
        simp only [Function.update_same]
        apply Double.sub_nonneg _ _ hge
        rintro s ⟨hb, ha⟩
        cases s with
        | false => exact hc ha
        | true =>
          have := h k
          rw [hb] at this
          simp [Double.ge, Double.zero] at this
      · rw [Function.update_noteq e]
        exact h k
    · rw [h1] at hrun
      simp at hrun

theorem runLedger_keeps_nonneg (calls : List LedgerCall) (accounts t : AccountTable)
    (hc : ∀ c ∈ calls, c.creditNonneg) (hrun : runLedger accounts calls = some t)
    (h : ∀ k, Double.ge (accounts k).balance Double.zero = true) :
    ∀ k, Double.ge (t k).balance Double.zero = true := by
  induction calls generalizing accounts with
  | nil =>
    simp only [runLedger, Option.some.injEq] at hrun
    rw [← hrun]
    exact h
  | cons c cs ih =>
    simp only [runLedger] at hrun
    cases hr : c.run accounts with
    | none => simp [hr] at hrun
    | some t1 =>
      rw [hr] at hrun
      simp only [Option.some_bind] at hrun
      exact ih t1 (fun d hd => hc d (List.mem_cons_of_mem c hd)) hrun
        (run_keeps_nonneg accounts t1 c (hc c (List.mem_cons_self c cs)) hr h)

/-- C6 (as stated, refuted). A state reachable from the zero-initialised table has an allocated
account with a negative balance: after `create_account` with initial balance -5, and also
after `create_account` with initial balance 0 followed by `deposit` of -5. -/
theorem balance_nonneg_refuted :
    (∃ t : AccountTable,
        runLedger initialize_shared_memory [LedgerCall.create 7 (-5) 0] = some t
        ∧ (t ⟨0, by decide⟩).account_id ≠ 0
        ∧ (t ⟨0, by decide⟩).balance = -5
        ∧ Double.ge (t ⟨0, by decide⟩).balance Double.zero = false)
    ∧ (∃ t : AccountTable,
        runLedger initialize_shared_memory [LedgerCall.create 7 0 0, LedgerCall.dep 1 (-5)]
          = some t
        ∧ (t ⟨0, by decide⟩).account_id ≠ 0
        ∧ (t ⟨0, by decide⟩).balance = -5
        ∧ Double.ge (t ⟨0, by decide⟩).balance Double.zero = false) := by
  refine ⟨⟨_, rfl, ?_, ?_, ?_⟩, ⟨_, rfl, ?_, ?_, ?_⟩⟩ <;> decide

/-- C6 (amended). In every state reachable from the zero-initialised account table by a
sequence of `create_account` (slot >= 0), `deposit` and `withdraw` calls that return, in
which every initial balance and every deposited amount is `>= 0` and no withdrawn amount
is `+inf` (account ids, slots, customer ids and the other withdrawn amounts are
arbitrary), every allocated account has balance `>= 0`. -/
theorem balance_nonneg_invariant (calls : List LedgerCall) (t : AccountTable)
    (hc : ∀ c ∈ calls, c.creditNonneg)
    (hrun : runLedger initialize_shared_memory calls = some t)
    (k : Fin MAX_ACCOUNTS) (_hk : (t k).account_id ≠ 0) :
    Double.ge (t k).balance Double.zero = true :=
  runLedger_keeps_nonneg calls initialize_shared_memory t hc hrun
    (fun _ => (by decide : Double.ge Double.zero Double.zero = true)) k

/-- C6 (amended), instance: account 1 created with balance 5, a deposit of 3, a withdrawal
of 8: the balance is 0. -/
theorem balance_nonneg_invariant_witness :
    ∃ t : AccountTable,
      runLedger initialize_shared_memory
        [LedgerCall.create 7 5 0, LedgerCall.dep 1 3, LedgerCall.wd 1 8] = some t
      ∧ (t ⟨0, by decide⟩).balance = 0
      ∧ Double.ge (t ⟨0, by decide⟩).balance Double.zero = true :=
  ⟨_, rfl, by decide,
    balance_nonneg_invariant [LedgerCall.create 7 5 0, LedgerCall.dep 1 3, LedgerCall.wd 1 8] _
      (by simp [LedgerCall.creditNonneg]; decide) rfl ⟨0, by decide⟩ (by decide)⟩

/-! ## Account ids -/

theorem find_range_none (p : Nat → Bool) (n : Nat) :
    (List.range n).find? p = none ↔ ∀ j, j < n → p j = false := by
  rw [List.find?_eq_none]
  constructor
  · intro h j hj
    have := h j (List.mem_range.2 hj)
    simpa using this
  · intro h j hj
    have := h j (List.mem_range.1 hj)
    simp [this]

theorem find_range_some (p : Nat → Bool) (n : Nat) :
    ∀ i, (List.range n).find? p = some i ↔ i < n ∧ p i = true ∧ ∀ j, j < i → p j = false := by
  induction n with
  | zero =>
    intro i
    simp
  | succ n ih =>
    intro i
    rw [List.range_succ, List.find?_append]
    cases h : (List.range n).find? p with
    | some a =>
      have ha := (ih a).1 h
      simp only [Option.or_some, Option.some.injEq]
      constructor
      · intro e
        subst e
        exact ⟨by omega, ha.2.1, ha.2.2⟩
      · rintro ⟨_, hi, hlt⟩
        rcases Nat.lt_trichotomy a i with h1 | h1 | h1
        · have := hlt a h1
          rw [ha.2.1] at this
          cases this
        · exact h1
        · have := ha.2.2 i h1
          rw [hi] at this
          cases this
    | none =>
      have hn := (find_range_none p n).1 h
      simp only [Option.none_or, List.find?_cons, List.find?_nil]
      cases hp : p n with
      | true =>
        simp only [Option.some.injEq]
        constructor
        · intro e
          subst e
          exact ⟨by omega, hp, hn⟩
        · rintro ⟨hi1, hi, hlt⟩
          by_contra hne
          have : i < n := by omega
          have := hn i this
          rw [hi] at this
          cases this
      | false =>
        constructor
        · intro e
          cases e
        · rintro ⟨hi1, hi, _⟩
          have : i = n ∨ i < n := by omega
          rcases this with e | e
          · rw [e, hp] at hi
            cases hi
          · rw [hn i e] at hi
            cases hi

theorem rd_nat {α : Type} [Inhabited α] {n : Nat} (a : Fin n → α) (k : Fin n) :
    rd a ((k.val : Nat) : Int) = a k := rd_slot a k

/-- No record matches: `update_process_status` returns the table it was given. -/
theorem update_process_status_none (t : ProcessTable) (process_id : Int)
    (status : ProcessStatus)
    (h : ∀ k : Fin MAX_PROCESSES, k.val < t.count → (t.processes k).process_id ≠ process_id) :
    update_process_status t process_id status = t := by
  unfold update_process_status
  cases hf : (List.range t.count).find?
      (fun (i : Nat) => decide ((rd t.processes (i : Int)).process_id = process_id)) with
  | none => rfl
  | some i =>
    have hi := (find_range_some _ _ i).1 hf
    by_cases hr : i < MAX_PROCESSES
    · have := h ⟨i, hr⟩ hi.1
      have h2 := hi.2.1
      simp only [decide_eq_true_eq] at h2
      rw [← rd_slot t.processes ⟨i, hr⟩] at this
      exact absurd h2 this
    · simp only
      have : wr t.processes (i : Int) { rd t.processes (i : Int) with status := status }
          = t.processes := by
        unfold wr
        rw [dif_neg (by simp only [MAX_PROCESSES] at hr ⊢; omega)]
      rw [this]

/-- The first matching record is `k`: `update_process_status` sets its status only. -/
theorem update_process_status_first (t : ProcessTable) (process_id : Int)
    (status : ProcessStatus) (k : Fin MAX_PROCESSES) (hk : k.val < t.count)
    (hm : (t.processes k).process_id = process_id)
    (hfirst : ∀ j : Fin MAX_PROCESSES, j < k → (t.processes j).process_id ≠ process_id) :
    update_process_status t process_id status =
      { processes := Function.update t.processes k { t.processes k with status := status },
        count := t.count } := by
  have hf : (List.range t.count).find?
      (fun (i : Nat) => decide ((rd t.processes (i : Int)).process_id = process_id)) = some k.val := by
    rw [find_range_some]
    refine ⟨hk, ?_, ?_⟩
    · rw [rd_nat]
      simpa using hm
    · intro j hj
      have hj2 : j < MAX_PROCESSES := lt_trans hj k.isLt
      have := hfirst ⟨j, hj2⟩ (by exact hj)
      rw [← rd_slot t.processes ⟨j, hj2⟩] at this
      simpa using this
  unfold update_process_status
  rw [hf]
  simp only
  rw [rd_nat, wr_slot]

theorem update_process_status_count (t : ProcessTable) (process_id : Int)
    (status : ProcessStatus) : (update_process_status t process_id status).count = t.count := by
  unfold update_process_status
  split <;> rfl

/-- `update_process_status` changes no field but `status`, in any record. -/
theorem update_process_status_fields (t : ProcessTable) (process_id : Int)
    (status : ProcessStatus) (k : Fin MAX_PROCESSES) :
    ((update_process_status t process_id status).processes k).process_id
      = (t.processes k).process_id := by
  unfold update_process_status
  split
  · rename_i i _
    simp only
    unfold wr
    split
    · rename_i h
      by_cases e : k = ⟨(i : Int).toNat, by omega⟩
      · rw [e, Function.update_same]
        unfold rd
        rw [dif_pos h]
      · rw [Function.update_noteq e]
    · rfl
  · rfl

/-- What `add_process` does on a table that is not full. -/
theorem add_process_append (t : ProcessTable) (account_id : Int) (amount : Double)
    (is_deposit : Int) (execution_time : Int) (h : t.count < MAX_PROCESSES) :
    add_process t account_id amount is_deposit execution_time =
      { processes := Function.update t.processes ⟨t.count, h⟩
          ⟨(t.count : Int) + 1, account_id, amount, is_deposit, ProcessStatus.PENDING,
            execution_time⟩,
        count := t.count + 1 } := by
  unfold add_process
  rw [if_pos h]
  have := wr_slot t.processes ⟨t.count, h⟩
    ⟨(t.count : Int) + 1, account_id, amount, is_deposit, ProcessStatus.PENDING, execution_time⟩
  simp only at this
  rw [this]

theorem run_keeps_TableInv (t : ProcessTable) (c : TableCall) (h : TableInv t) :
    TableInv (c.run t) := by
  cases c with
  | add account_id amount is_deposit execution_time =>
    simp only [TableCall.run]
    by_cases hc : t.count < MAX_PROCESSES
    · rw [add_process_append t account_id amount is_deposit execution_time hc]
      refine ⟨hc, ?_⟩
      intro k hk
      simp only at hk ⊢
      by_cases e : k = ⟨t.count, hc⟩
      · rw [e, Function.update_same]
      · rw [Function.update_noteq e]
        have : k.val ≠ t.count := fun e2 => e (Fin.ext e2)
        exact h.2 k (by omega)
    · unfold add_process
      rw [if_neg hc]
      exact h
  | update process_id status =>
    simp only [TableCall.run]
    refine ⟨by rw [update_process_status_count]; exact h.1, ?_⟩
    intro k hk
    rw [update_process_status_count] at hk
    rw [update_process_status_fields]
    exact h.2 k hk

theorem runTable_keeps_TableInv (calls : List TableCall) :
    ∀ t : ProcessTable, TableInv t → TableInv (runTable t calls) := by
  induction calls with
  | nil => intro t h; exact h
  | cons c cs ih => intro t h; exact ih (c.run t) (run_keeps_TableInv t c h)

theorem TableInv_zero : TableInv process_table_zero :=
  ⟨Nat.zero_le _, fun _ hk => absurd hk (Nat.not_lt_zero _)⟩

/-- C11. In every state reachable from the zero-initialised process table by a sequence of
`add_process` and `update_process_status` calls, count <= MAX_PROCESSES; and `add_process`
on a table whose count equals MAX_PROCESSES takes the branch that adds nothing and returns
the table (count and every record) unchanged. -/
theorem process_table_capacity :
    (∀ calls : List TableCall, (runTable process_table_zero calls).count ≤ MAX_PROCESSES)
    ∧ ∀ (t : ProcessTable) (account_id : Int) (amount : Double) (is_deposit execution_time : Int),
        t.count = MAX_PROCESSES →
          add_process t account_id amount is_deposit execution_time = t := by
  refine ⟨fun calls => (runTable_keeps_TableInv calls _ TableInv_zero).1, ?_⟩
  intro t account_id amount is_deposit execution_time h
  unfold add_process
  rw [if_neg (by omega)]

/-- C11, instance: a table with count 100 refuses a new process. -/
theorem process_table_capacity_witness :
    (runTable process_table_zero [TableCall.add 1 5 1 3, TableCall.update 1
        ProcessStatus.COMPLETED]).count ≤ MAX_PROCESSES
    ∧ add_process fullTable 1 5 1 3 = fullTable :=
  ⟨process_table_capacity.1 _, process_table_capacity.2 fullTable 1 5 1 3 rfl⟩

/-- C12. `add_process` on a table with count = n < MAX_PROCESSES sets the record at position
n to (process_id = n + 1, the given account id, amount, kind and execution time, status
PENDING), leaves every other record unchanged and sets count to n + 1; consequently in
every table reachable from the zero-initialised one the record at position i < count has
process_id = i + 1, so the process ids are strictly increasing in insertion order (hence
pairwise distinct). -/
theorem add_process_ids (t : ProcessTable) (account_id : Int) (amount : Double)
    (is_deposit execution_time : Int) (calls : List TableCall) :
    (t.count < MAX_PROCESSES →
      (add_process t account_id amount is_deposit execution_time).count = t.count + 1
      ∧ rd (add_process t account_id amount is_deposit execution_time).processes (t.count : Int)
          = ⟨(t.count : Int) + 1, account_id, amount, is_deposit, ProcessStatus.PENDING,
              execution_time⟩
      ∧ ∀ k : Fin MAX_PROCESSES, k.val ≠ t.count →
          (add_process t account_id amount is_deposit execution_time).processes k
            = t.processes k)
    ∧ (∀ k : Fin MAX_PROCESSES, k.val < (runTable process_table_zero calls).count →
        ((runTable process_table_zero calls).processes k).process_id = (k.val : Int) + 1)
    ∧ (∀ i j : Fin MAX_PROCESSES, i < j → j.val < (runTable process_table_zero calls).count →
        ((runTable process_table_zero calls).processes i).process_id
          < ((runTable process_table_zero calls).processes j).process_id) := by
  have inv := runTable_keeps_TableInv calls _ TableInv_zero
  refine ⟨?_, inv.2, ?_⟩
  · intro h
    rw [add_process_append t account_id amount is_deposit execution_time h]
    refine ⟨rfl, ?_, ?_⟩
    · have := rd_slot (Function.update t.processes ⟨t.count, h⟩
        (⟨(t.count : Int) + 1, account_id, amount, is_deposit, ProcessStatus.PENDING,
          execution_time⟩ : Process)) ⟨t.count, h⟩
      simp only [Function.update_same] at this
      exact this
    · intro k hk
      have e : k ≠ ⟨t.count, h⟩ := fun e => hk (congrArg Fin.val e)
      simp only [Function.update_noteq e]
  · intro i j hij hj
    have hi : i.val < (runTable process_table_zero calls).count := lt_trans hij hj
    rw [inv.2 i hi, inv.2 j hj]
    have : i.val < j.val := hij
    omega

/-- C12, instance: two processes added to the empty table, then a status update. -/
theorem add_process_ids_witness :
    ((add_process process_table_zero 1 5 1 3).count = 0 + 1
      ∧ rd (add_process process_table_zero 1 5 1 3).processes 0
          = ⟨1, 1, 5, 1, ProcessStatus.PENDING, 3⟩)
    ∧ ((runTable process_table_zero [TableCall.add 1 5 1 3, TableCall.add 2 7 0 4,
          TableCall.update 1 ProcessStatus.COMPLETED]).processes ⟨1, by decide⟩).process_id
        = 2 := by
  have h := add_process_ids process_table_zero 1 5 1 3 [TableCall.add 1 5 1 3,
    TableCall.add 2 7 0 4, TableCall.update 1 ProcessStatus.COMPLETED]
  have h1 := h.1 (by decide)
  exact ⟨⟨h1.1, h1.2.1⟩, h.2.1 ⟨1, by decide⟩ (by decide)⟩

/-- C13. For every process table, process id and status: if no record among the first
`count` records has that process_id, `update_process_status` returns the table unchanged;
otherwise it sets the status of the first matching record to the given status and changes
nothing else (not count, not any other record, not any other field of that record). -/
theorem update_process_status_frame (t : ProcessTable) (process_id : Int)
    (status : ProcessStatus) :
    ((∀ k : Fin MAX_PROCESSES, k.val < t.count → (t.processes k).process_id ≠ process_id) →
      update_process_status t process_id status = t)
    ∧ ∀ k : Fin MAX_PROCESSES, k.val < t.count → (t.processes k).process_id = process_id →
        (∀ j : Fin MAX_PROCESSES, j < k → (t.processes j).process_id ≠ process_id) →
        update_process_status t process_id status =
          { processes := Function.update t.processes k
              { process_id := (t.processes k).process_id,
                account_id := (t.processes k).account_id,
                amount := (t.processes k).amount,
                is_deposit := (t.processes k).is_deposit,
                status := status,
                execution_time := (t.processes k).execution_time },
            count := t.count } :=
  ⟨update_process_status_none t process_id status,
   fun k hk hm hfirst => update_process_status_first t process_id status k hk hm hfirst⟩

/-- C13, instances: id 9 matches no record of `twinTable`; id 7 matches records 0 and 1 and
only record 0 is updated. -/
theorem update_process_status_frame_witness :
    update_process_status twinTable 9 ProcessStatus.COMPLETED = twinTable
    ∧ update_process_status twinTable 7 ProcessStatus.COMPLETED =
        { processes := Function.update twinTable.processes ⟨0, by decide⟩
            ⟨7, 1, 5, 1, ProcessStatus.COMPLETED, 3⟩,
          count := 2 } :=
  ⟨(update_process_status_frame twinTable 9 ProcessStatus.COMPLETED).1
      (fun _ _ => by simp [twinTable]),
   (update_process_status_frame twinTable 7 ProcessStatus.COMPLETED).2 ⟨0, by decide⟩
      (by decide) rfl (fun j hj => absurd hj (by simp [Fin.lt_def]))⟩

/-! ## The scheduling queue as a list -/

theorem liveFrom_congr (tr : Fin MAX_ACCOUNTS → Ptr) (n : Nat) :
    ∀ i j : Nat, i % MAX_ACCOUNTS = j % MAX_ACCOUNTS → liveFrom tr i n = liveFrom tr j n := by
  induction n with
  | zero => intro i j _; rfl
  | succ n ih =>
    intro i j h
    simp only [liveFrom]
    rw [ih (i + 1) (j + 1) (by simp only [MAX_ACCOUNTS] at h ⊢; omega)]
    simp only [h]

theorem liveFrom_update_snoc (tr : Fin MAX_ACCOUNTS → Ptr) (r : Fin MAX_ACCOUNTS) (p : Ptr)
    (n : Nat) :
    ∀ i : Nat, (i + n) % MAX_ACCOUNTS = r.val → n < MAX_ACCOUNTS →
      liveFrom (Function.update tr r p) i (n + 1) = liveFrom tr i n ++ [p] := by
  induction n with
  | zero =>
    intro i h _
    have e : (⟨i % MAX_ACCOUNTS, Nat.mod_lt _ (by decide)⟩ : Fin MAX_ACCOUNTS) = r :=
      Fin.ext (by simpa using h)
    simp only [liveFrom, List.nil_append]
    rw [e, Function.update_same]
  | succ n ih =>
    intro i h hn
    have ne : (⟨i % MAX_ACCOUNTS, Nat.mod_lt _ (by decide)⟩ : Fin MAX_ACCOUNTS) ≠ r := by
      intro e
      have e2 : i % MAX_ACCOUNTS = r.val := congrArg Fin.val e
      simp only [MAX_ACCOUNTS] at h hn e2
      omega
    have step := ih (i + 1) (by rw [← h]; congr 1; omega) (by omega)
    rw [liveFrom, step, Function.update_noteq ne]
    simp only [liveFrom, List.cons_append]

theorem queue_empty_iff (q : ProcessQueue) : is_queue_empty q = true ↔ q.live = [] := by
  have hf := q.front.isLt
  have hr := q.rear.isLt
  simp only [is_queue_empty, beq_iff_eq, ProcessQueue.live, ProcessQueue.size]
  constructor
  · intro h
    have : (q.rear.val + MAX_ACCOUNTS - q.front.val) % MAX_ACCOUNTS = 0 := by
      simp only [MAX_ACCOUNTS] at hf hr ⊢
      omega
    rw [this]
    rfl
  · intro h
    cases hn : (q.rear.val + MAX_ACCOUNTS - q.front.val) % MAX_ACCOUNTS with
    | zero =>
      simp only [MAX_ACCOUNTS] at hf hr hn
      omega
    | succ n =>
      rw [hn] at h
      simp [liveFrom] at h

theorem size_lt (q : ProcessQueue) : q.size < MAX_ACCOUNTS :=
  Nat.mod_lt _ (by decide)

theorem live_length (q : ProcessQueue) : q.live.length = q.size := by
  have h : ∀ (n i : Nat), (liveFrom q.transactions i n).length = n := by
    intro n
    induction n with
    | zero => intro i; rfl
    | succ n ih => intro i; simp [liveFrom, ih]
  exact h _ _

/-- A non-empty queue: `dequeue` returns the oldest live entry and leaves the others. -/
theorem live_dequeue (q : ProcessQueue) (h : is_queue_empty q = false) :
    q.live = (dequeue q).1 :: (dequeue q).2.live := by
  have hf := q.front.isLt
  have hr := q.rear.isLt
  have hne : q.front.val ≠ q.rear.val := by
    simpa [is_queue_empty] using h
  obtain ⟨n, hn⟩ : ∃ n, q.size = n + 1 := by
    refine ⟨q.size - 1, ?_⟩
    simp only [ProcessQueue.size, MAX_ACCOUNTS] at hf hr ⊢
    omega
  have hn2 : (dequeue q).2.size = n := by
    simp only [ProcessQueue.size, dequeue, MAX_ACCOUNTS] at hf hr hn ⊢
    omega
  have e : (⟨q.front.val % MAX_ACCOUNTS, Nat.mod_lt _ (by decide)⟩ : Fin MAX_ACCOUNTS)
      = q.front := Fin.ext (Nat.mod_eq_of_lt hf)
  rw [ProcessQueue.live, ProcessQueue.live, hn, hn2, liveFrom, e]
  simp only [dequeue]
  rw [liveFrom_congr q.transactions n ((q.front.val + 1) % MAX_ACCOUNTS) (q.front.val + 1)
    (Nat.mod_mod _ _)]

/-- A queue with fewer than `MAX_ACCOUNTS - 1` live entries: `enqueue` appends at the end. -/
theorem live_enqueue (q : ProcessQueue) (p : Ptr) (h : q.size + 1 < MAX_ACCOUNTS) :
    (enqueue q p).live = q.live ++ [p] := by
  have hf := q.front.isLt
  have hr := q.rear.isLt
  have hs : (enqueue q p).size = q.size + 1 := by
    simp only [ProcessQueue.size, enqueue, MAX_ACCOUNTS] at hf hr h ⊢
    omega
  rw [ProcessQueue.live, hs]
  simp only [enqueue]
  rw [liveFrom_update_snoc q.transactions q.rear p q.size q.front.val ?_ (by omega)]
  · rfl
  · simp only [ProcessQueue.size, MAX_ACCOUNTS] at hf hr h ⊢
    omega

theorem dequeue_size (q : ProcessQueue) (h : is_queue_empty q = false) :
    (dequeue q).2.size + 1 = q.size := by
  have h1 := live_dequeue q h
  have h2 := congrArg List.length h1
  rw [live_length, List.length_cons, live_length] at h2
  exact h2.symm

/-! ## 32-bit `int` arithmetic -/

theorem wrap32_range (x : Int) : INT_MIN ≤ wrap32 x ∧ wrap32 x ≤ INT_MAX := by
  simp only [wrap32, INT_MIN, INT_MAX]
  omega

theorem wrap32_id (x : Int) (hlo : INT_MIN ≤ x) (hhi : x ≤ INT_MAX) : wrap32 x = x := by
  simp only [wrap32, INT_MIN, INT_MAX] at *
  omega

theorem wrap32_add_wrap (a b : Int) : wrap32 (wrap32 a + b) = wrap32 (a + b) := by
  simp only [wrap32]
  omega

/-! ## One iteration of the scheduler -/

/-- The iteration that gives the front transaction a whole quantum and requeues it. -/
theorem rr_body_requeue (s : SchedState)
    (h : (s.metrics (dequeue s.q).1).remaining_time > TIME_QUANTUM) :
    rr_body s =
      { q := enqueue (dequeue s.q).2 (dequeue s.q).1,
        metrics := Function.update s.metrics (dequeue s.q).1
          { s.metrics (dequeue s.q).1 with
            remaining_time := (s.metrics (dequeue s.q).1).remaining_time - TIME_QUANTUM,
            turnaround_time := wrap32 ((s.metrics (dequeue s.q).1).completion_time
              - (s.metrics (dequeue s.q).1).arrival_time),
            waiting_time := wrap32 (wrap32 ((s.metrics (dequeue s.q).1).completion_time
              - (s.metrics (dequeue s.q).1).arrival_time)
              - (s.metrics (dequeue s.q).1).execution_time) },
        current_time := wrap32 (s.current_time + TIME_QUANTUM) } := by
  simp only [rr_body, if_pos h, Function.update_same, Function.update_idem]

/-- The iteration that lets the front transaction finish. -/
theorem rr_body_finish (s : SchedState)
    (h : ¬ (s.metrics (dequeue s.q).1).remaining_time > TIME_QUANTUM) :
    rr_body s =
      { q := (dequeue s.q).2,
        metrics := Function.update s.metrics (dequeue s.q).1
          { s.metrics (dequeue s.q).1 with
            completion_time :=
              wrap32 (s.current_time + (s.metrics (dequeue s.q).1).remaining_time),
            remaining_time := 0,
            turnaround_time :=
              wrap32 (wrap32 (s.current_time + (s.metrics (dequeue s.q).1).remaining_time)
                - (s.metrics (dequeue s.q).1).arrival_time),
            waiting_time :=
              wrap32 (wrap32
                (wrap32 (s.current_time + (s.metrics (dequeue s.q).1).remaining_time)
                  - (s.metrics (dequeue s.q).1).arrival_time)
                - (s.metrics (dequeue s.q).1).execution_time) },
        current_time :=
          wrap32 (s.current_time + (s.metrics (dequeue s.q).1).remaining_time) } := by
  simp only [rr_body, if_neg h, Function.update_same, Function.update_idem]

/-- An iteration only writes the record of the transaction it dequeued. -/
theorem rr_body_frame (s : SchedState) (x : Ptr) (hx : x ≠ (dequeue s.q).1) :
    (rr_body s).metrics x = s.metrics x := by
  by_cases h : (s.metrics (dequeue s.q).1).remaining_time > TIME_QUANTUM
  · rw [rr_body_requeue s h]
    simp only [Function.update_noteq hx]
  · rw [rr_body_finish s h]
    simp only [Function.update_noteq hx]

/-- The live entries after a requeueing iteration. -/
theorem rr_body_live_requeue (s : SchedState) (he : is_queue_empty s.q = false)
    (h : (s.metrics (dequeue s.q).1).remaining_time > TIME_QUANTUM) :
    (rr_body s).q.live = (dequeue s.q).2.live ++ [(dequeue s.q).1] := by
  rw [rr_body_requeue s h]
  have h1 := dequeue_size s.q he
  have h2 := size_lt s.q
  exact live_enqueue _ _ (by omega)

/-- The live entries after a finishing iteration. -/
theorem rr_body_live_finish (s : SchedState)
    (h : ¬ (s.metrics (dequeue s.q).1).remaining_time > TIME_QUANTUM) :
    (rr_body s).q.live = (dequeue s.q).2.live := by
  rw [rr_body_finish s h]

/-- No iteration raises any record's remaining time above what it was, except that a
finished transaction's remaining time becomes 0. -/
theorem rr_body_cost_le (s : SchedState) (x : Ptr) :
    ((rr_body s).metrics x).remaining_time.toNat ≤ (s.metrics x).remaining_time.toNat := by
  by_cases hx : x = (dequeue s.q).1
  · by_cases h : (s.metrics (dequeue s.q).1).remaining_time > TIME_QUANTUM
    · rw [rr_body_requeue s h, hx]
      simp only [Function.update_same, TIME_QUANTUM]
      omega
    · rw [rr_body_finish s h, hx]
      simp only [Function.update_same]
      omega
  · rw [rr_body_frame s x hx]

/-- Every iteration lowers the bound `rr_bound`. -/
theorem rr_bound_decreases (s : SchedState) (he : is_queue_empty s.q = false) :
    rr_bound (rr_body s) < rr_bound s := by
  have hl := live_dequeue s.q he
  have hrest : (((dequeue s.q).2.live).map
        (fun p => 1 + ((rr_body s).metrics p).remaining_time.toNat)).sum
      ≤ (((dequeue s.q).2.live).map (fun p => 1 + (s.metrics p).remaining_time.toNat)).sum := by
    apply List.sum_le_sum
    intro x _
    have := rr_body_cost_le s x
    omega
  by_cases h : (s.metrics (dequeue s.q).1).remaining_time > TIME_QUANTUM
  · have hp : ((rr_body s).metrics (dequeue s.q).1).remaining_time.toNat
        < (s.metrics (dequeue s.q).1).remaining_time.toNat := by
      rw [rr_body_requeue s h]
      simp only [Function.update_same, TIME_QUANTUM] at h ⊢
      omega
    unfold rr_bound
    rw [rr_body_live_requeue s he h, hl]
    simp only [List.map_append, List.sum_append, List.map_cons, List.sum_cons, List.map_nil,
      List.sum_nil] at hrest ⊢
    omega
  · unfold rr_bound
    rw [rr_body_live_finish s h, hl]
    simp only [List.map_cons, List.sum_cons] at hrest ⊢
    omega

/-! ## The scheduler loop -/

theorem rr_loop_empty (n : Nat) (s : SchedState) (he : is_queue_empty s.q = true) :
    rr_loop n s = some s := by
  cases n <;> simp [rr_loop, he]

theorem rr_loop_step (n : Nat) (s : SchedState) (he : is_queue_empty s.q = false) :
    rr_loop (n + 1) s = rr_loop n (rr_body s) := by
  simp [rr_loop, he]

/-- Termination: the loop exits within `rr_bound s` iterations, with the queue empty. -/
theorem rr_loop_terminates (n : Nat) :
    ∀ s : SchedState, rr_bound s ≤ n →
      ∃ s1, rr_loop n s = some s1 ∧ is_queue_empty s1.q = true := by
  induction n with
  | zero =>
    intro s hb
    have he : is_queue_empty s.q = true := by
      cases hq : is_queue_empty s.q with
      | true => rfl
      | false =>
        have hl := live_dequeue s.q hq
        simp only [rr_bound, hl, List.map_cons, List.sum_cons] at hb
        omega
    exact ⟨s, rr_loop_empty 0 s he, he⟩
  | succ n ih =>
    intro s hb
    cases hq : is_queue_empty s.q with
    | true => exact ⟨s, rr_loop_empty _ s hq, hq⟩
    | false =>
      rw [rr_loop_step n s hq]
      exact ih (rr_body s) (by have := rr_bound_decreases s hq; omega)

/-- More fuel does not change the state at loop exit. -/
theorem rr_loop_mono (n : Nat) :
    ∀ (s s1 : SchedState) (k : Nat), rr_loop n s = some s1 → rr_loop (n + k) s = some s1 := by
  induction n with
  | zero =>
    intro s s1 k h
    cases hq : is_queue_empty s.q with
    | true =>
      rw [rr_loop_empty 0 s hq] at h
      rw [rr_loop_empty _ s hq]
      exact h
    | false => simp [rr_loop, hq] at h
  | succ n ih =>
    intro s s1 k h
    cases hq : is_queue_empty s.q with
    | true =>
      rw [rr_loop_empty _ s hq] at h
      rw [rr_loop_empty _ s hq]
      exact h
    | false =>
      rw [rr_loop_step n s hq] at h
      rw [show n + 1 + k = (n + k) + 1 by omega, rr_loop_step (n + k) s hq]
      exact ih (rr_body s) s1 k h

/-- Loop invariants: a property kept by every iteration on a non-empty queue holds at exit. -/
theorem rr_loop_invariant (I : SchedState → Prop)
    (hI : ∀ s, is_queue_empty s.q = false → I s → I (rr_body s)) (n : Nat) :
    ∀ s s1 : SchedState, rr_loop n s = some s1 → I s → I s1 ∧ is_queue_empty s1.q = true := by
  induction n with
  | zero =>
    intro s s1 h hs
    cases hq : is_queue_empty s.q with
    | true =>
      rw [rr_loop_empty 0 s hq, Option.some.injEq] at h
      rw [← h]
      exact ⟨hs, hq⟩
    | false => simp [rr_loop, hq] at h
  | succ n ih =>
    intro s s1 h hs
    cases hq : is_queue_empty s.q with
    | true =>
      rw [rr_loop_empty _ s hq, Option.some.injEq] at h
      rw [← h]
      exact ⟨hs, hq⟩
    | false =>
      rw [rr_loop_step n s hq] at h
      exact ih (rr_body s) s1 h (hI s hq hs)

/-- `round_robin_scheduling` returns on every input, with the queue empty. -/
theorem round_robin_returns (s : SchedState) :
    ∃ s1, round_robin_scheduling s = some s1 ∧ is_queue_empty s1.q = true :=
  rr_loop_terminates (rr_bound s) s (le_refl _)

/-- A live entry stays live or its record holds its final figures: kept by every iteration. -/
theorem rr_body_keeps_final (s : SchedState) (he : is_queue_empty s.q = false) (p : Ptr)
    (h : p ∈ s.q.live ∨ FinalMetrics (s.metrics p)) :
    p ∈ (rr_body s).q.live ∨ FinalMetrics ((rr_body s).metrics p) := by
  have hl := live_dequeue s.q he
  by_cases hp : p = (dequeue s.q).1
  · by_cases hr : (s.metrics (dequeue s.q).1).remaining_time > TIME_QUANTUM
    · left
      rw [rr_body_live_requeue s he hr, hp]
      simp
    · right
      rw [rr_body_finish s hr, hp]
      simp only [Function.update_same, FinalMetrics]
      exact ⟨trivial, trivial, trivial⟩
  · rcases h with h | h
    · left
      rw [hl] at h
      have hrest : p ∈ (dequeue s.q).2.live := by
        rcases List.mem_cons.1 h with h1 | h1
        · exact absurd h1 hp
        · exact h1
      by_cases hr : (s.metrics (dequeue s.q).1).remaining_time > TIME_QUANTUM
      · rw [rr_body_live_requeue s he hr]
        exact List.mem_append_left _ hrest
      · rw [rr_body_live_finish s hr]
        exact hrest
    · right
      rw [rr_body_frame s p hp]
      exact h

/-- Every transaction live at the start holds its final figures when the scheduler returns,
whatever the queue holds (repeated entries included). -/
theorem rr_final_general (s : SchedState) :
    ∃ s1, round_robin_scheduling s = some s1
      ∧ ∀ p ∈ s.q.live, FinalMetrics (s1.metrics p) := by
  obtain ⟨s1, h1, he⟩ := round_robin_returns s
  refine ⟨s1, h1, ?_⟩
  have inv := rr_loop_invariant
    (fun t => ∀ p ∈ s.q.live, p ∈ t.q.live ∨ FinalMetrics (t.metrics p))
    (fun t hq ht p hp => rr_body_keeps_final t hq p (ht p hp))
    (rr_bound s) s s1 h1 (fun p hp => Or.inl hp)
  intro p hp
  rcases inv.1 p hp with h | h
  · rw [(queue_empty_iff s1.q).1 he] at h
    exact absurd h (List.not_mem_nil p)
  · exact h

/-- C5 (as stated, refuted). One transaction with remaining time 1, execution time 1 and
arrival time -1, clock 2147483646: it completes at 2147483647 = INT_MAX, and the `int`
subtraction completion_time - arrival_time overflows, so the stored turnaround_time is
-2147483648 and not completion_time - arrival_time = 2147483648. -/
theorem rr_final_metrics_overflow :
    1 ≤ overflowSampleA.q.live.length ∧ overflowSampleA.q.live.length < MAX_ACCOUNTS
    ∧ overflowSampleA.q.live.Nodup
    ∧ ∃ s1, round_robin_scheduling overflowSampleA = some s1
      ∧ (s1.metrics 0).completion_time = 2147483647
      ∧ (s1.metrics 0).arrival_time = -1
      ∧ (s1.metrics 0).turnaround_time = -2147483648
      ∧ (s1.metrics 0).turnaround_time
          ≠ (s1.metrics 0).completion_time - (s1.metrics 0).arrival_time := by
  decide

/-- C5 (amended). For every queue holding n pairwise distinct transactions with
1 <= n < MAX_ACCOUNTS, any arrival, execution and remaining times and any initial clock,
`round_robin_scheduling` returns, and then every one of those transactions has
remaining_time = 0, and its turnaround_time and waiting_time are the 32-bit `int` results
(wrapping on overflow) of completion_time - arrival_time and turnaround_time -
execution_time; each equals the exact difference whenever that difference lies in
[INT_MIN, INT_MAX]. (The proof, `rr_final_general`, uses none of the three hypotheses on
the queue.) -/
theorem rr_final_metrics (s : SchedState) (_hn : 1 ≤ s.q.live.length)
    (_hlt : s.q.live.length < MAX_ACCOUNTS) (_hd : s.q.live.Nodup) :
    ∃ s1, round_robin_scheduling s = some s1
      ∧ ∀ p ∈ s.q.live,
          (s1.metrics p).remaining_time = 0
          ∧ (s1.metrics p).turnaround_time
              = wrap32 ((s1.metrics p).completion_time - (s1.metrics p).arrival_time)
          ∧ (s1.metrics p).waiting_time
              = wrap32 ((s1.metrics p).turnaround_time - (s1.metrics p).execution_time)
          ∧ (INT_MIN ≤ (s1.metrics p).completion_time - (s1.metrics p).arrival_time →
              (s1.metrics p).completion_time - (s1.metrics p).arrival_time ≤ INT_MAX →
              (s1.metrics p).turnaround_time
                = (s1.metrics p).completion_time - (s1.metrics p).arrival_time)
          ∧ (INT_MIN ≤ (s1.metrics p).turnaround_time - (s1.metrics p).execution_time →
              (s1.metrics p).turnaround_time - (s1.metrics p).execution_time ≤ INT_MAX →
              (s1.metrics p).waiting_time
                = (s1.metrics p).turnaround_time - (s1.metrics p).execution_time) := by
  obtain ⟨s1, h1, h⟩ := rr_final_general s
  refine ⟨s1, h1, fun p hp => ?_⟩
  obtain ⟨hr, ht, hw⟩ := h p hp
  refine ⟨hr, ht, hw, ?_, ?_⟩
  · intro hlo hhi
    rw [ht]
    exact wrap32_id _ hlo hhi
  · intro hlo hhi
    rw [hw]
    exact wrap32_id _ hlo hhi

/-- C5 (amended), instance: the three transactions of `rrSample`; nothing overflows there,
so the figures are the exact differences. -/
theorem rr_final_metrics_witness :
    ∃ s1, round_robin_scheduling rrSample = some s1
      ∧ ∀ p ∈ rrSample.q.live,
          (s1.metrics p).remaining_time = 0
          ∧ (s1.metrics p).turnaround_time
              = (s1.metrics p).completion_time - (s1.metrics p).arrival_time
          ∧ (s1.metrics p).waiting_time
              = (s1.metrics p).turnaround_time - (s1.metrics p).execution_time := by
  obtain ⟨s1, h1, h⟩ := rr_final_metrics rrSample (by decide) (by decide) (by decide)
  have e : round_robin_scheduling rrSample
      = some (rr_body (rr_body (rr_body (rr_body (rr_body (rr_body rrSample)))))) := rfl
  rw [e, Option.some.injEq] at h1
  subst h1
  refine ⟨_, e, fun p hp => ?_⟩
  have hp3 : p = 0 ∨ p = 1 ∨ p = 2 := by
    have hl : rrSample.q.live = [0, 1, 2] := by decide
    rw [hl] at hp
    simpa using hp
  obtain ⟨hr, _, _, ht, hw⟩ := h p hp
  rcases hp3 with rfl | rfl | rfl
  · exact ⟨hr, ht (by decide) (by decide), hw (by decide) (by decide)⟩
  · exact ⟨hr, ht (by decide) (by decide), hw (by decide) (by decide)⟩
  · exact ⟨hr, ht (by decide) (by decide), hw (by decide) (by decide)⟩

/-- C4 (as stated, refuted). With execution times 5, 2, 4, arrival times 0, clock 0 and quantum 2
the scheduler leaves completion_time(T1) = 11, not 9. -/
theorem rr_example_T1_not_9 :
    ∃ s1, round_robin_scheduling rrSample = some s1
      ∧ (s1.metrics 0).completion_time = 11
      ∧ ¬ ((s1.metrics 0).completion_time = 9 ∧ (s1.metrics 1).completion_time = 4
            ∧ (s1.metrics 2).completion_time = 10) := by
  decide

/-- One loop iteration seen on the list of live entries, front transaction requeued. -/
theorem rr_loop_requeue (n : Nat) (s : SchedState) (p : Ptr) (rest : List Ptr)
    (hl : s.q.live = p :: rest) (hr : (s.metrics p).remaining_time > TIME_QUANTUM) :
    ∃ s1, rr_loop (n + 1) s = rr_loop n s1
      ∧ s1.q.live = rest ++ [p]
      ∧ s1.current_time = wrap32 (s.current_time + TIME_QUANTUM)
      ∧ (s1.metrics p).remaining_time = (s.metrics p).remaining_time - TIME_QUANTUM
      ∧ (s1.metrics p).completion_time = (s.metrics p).completion_time
      ∧ ∀ x, x ≠ p → s1.metrics x = s.metrics x := by
  have he : is_queue_empty s.q = false := by
    cases hq : is_queue_empty s.q with
    | false => rfl
    | true => rw [(queue_empty_iff s.q).1 hq] at hl; cases hl
  have hd := live_dequeue s.q he
  rw [hl] at hd
  injection hd with hp hrest
  rw [hp] at hr
  refine ⟨rr_body s, rr_loop_step n s he, ?_, ?_, ?_, ?_, ?_⟩
  · rw [rr_body_live_requeue s he hr, ← hp, ← hrest]
  · rw [rr_body_requeue s hr]
  · rw [rr_body_requeue s hr, hp]
    simp only [Function.update_same]
  · rw [rr_body_requeue s hr, hp]
    simp only [Function.update_same]
  · intro x hx
    exact rr_body_frame s x (by rw [← hp]; exact hx)

/-- One loop iteration seen on the list of live entries, front transaction finished. -/
theorem rr_loop_finish (n : Nat) (s : SchedState) (p : Ptr) (rest : List Ptr)
    (hl : s.q.live = p :: rest) (hr : ¬ (s.metrics p).remaining_time > TIME_QUANTUM) :
    ∃ s1, rr_loop (n + 1) s = rr_loop n s1
      ∧ s1.q.live = rest
      ∧ s1.current_time = wrap32 (s.current_time + (s.metrics p).remaining_time)
      ∧ (s1.metrics p).remaining_time = 0
      ∧ (s1.metrics p).completion_time
          = wrap32 (s.current_time + (s.metrics p).remaining_time)
      ∧ ∀ x, x ≠ p → s1.metrics x = s.metrics x := by
  have he : is_queue_empty s.q = false := by
    cases hq : is_queue_empty s.q with
    | false => rfl
    | true => rw [(queue_empty_iff s.q).1 hq] at hl; cases hl
  have hd := live_dequeue s.q he
  rw [hl] at hd
  injection hd with hp hrest
  rw [hp] at hr
  refine ⟨rr_body s, rr_loop_step n s he, ?_, ?_, ?_, ?_, ?_⟩
  · rw [rr_body_live_finish s hr, ← hrest]
  · rw [rr_body_finish s hr, hp]
  · rw [rr_body_finish s hr, hp]
    simp only [Function.update_same]
  · rw [rr_body_finish s hr, hp]
    simp only [Function.update_same]
  · intro x hx
    exact rr_body_frame s x (by rw [← hp]; exact hx)

theorem size_init_queue (q : ProcessQueue) : (init_queue q).size = 0 := by
  simp [ProcessQueue.size, init_queue]

theorem live_init_queue (q : ProcessQueue) : (init_queue q).live = [] := by
  rw [ProcessQueue.live, size_init_queue]
  rfl

/-- Three transactions enqueued on an initialised queue are its live entries, in order. -/
theorem live_enqueue3 (q : ProcessQueue) (p1 p2 p3 : Ptr) :
    (enqueue (enqueue (enqueue (init_queue q) p1) p2) p3).live = [p1, p2, p3] := by
  have l1 : (enqueue (init_queue q) p1).live = [p1] := by
    rw [live_enqueue _ _ (by rw [size_init_queue]; decide), live_init_queue]
    rfl
  have l2 : (enqueue (enqueue (init_queue q) p1) p2).live = [p1, p2] := by
    rw [live_enqueue _ _ (by rw [← live_length, l1]; simp only [List.length_cons, List.length_nil]; decide), l1]
    rfl
  rw [live_enqueue _ _ (by rw [← live_length, l2]; simp only [List.length_cons, List.length_nil]; decide), l2]
  rfl

/-- C4 (amended). Starting from an empty queue (`init_queue`) and a clock of 0, after
enqueueing three distinct transactions T1, T2, T3 in that order with remaining times 5, 2
and 4, `round_robin_scheduling` with quantum 2 returns and leaves completion_time(T1) = 11,
completion_time(T2) = 4 and completion_time(T3) = 10. -/
theorem rr_example_completion_times (q : ProcessQueue) (m : Metrics) (p1 p2 p3 : Ptr)
    (h12 : p1 ≠ p2) (h13 : p1 ≠ p3) (h23 : p2 ≠ p3)
    (r1 : (m p1).remaining_time = 5) (r2 : (m p2).remaining_time = 2)
    (r3 : (m p3).remaining_time = 4) :
    ∃ s, round_robin_scheduling
          ⟨enqueue (enqueue (enqueue (init_queue q) p1) p2) p3, m, 0⟩ = some s
      ∧ (s.metrics p1).completion_time = 11
      ∧ (s.metrics p2).completion_time = 4
      ∧ (s.metrics p3).completion_time = 10 := by
  have hl0 := live_enqueue3 q p1 p2 p3
  have hb : rr_bound ⟨enqueue (enqueue (enqueue (init_queue q) p1) p2) p3, m, 0⟩ = 14 := by
    simp [rr_bound, hl0, r1, r2, r3]
  unfold round_robin_scheduling
  rw [hb]
  -- T1 runs from 0 to 2 and is requeued with 3 left
  obtain ⟨s1, e1, l1, c1, a1, _, f1⟩ := rr_loop_requeue 13
    ⟨enqueue (enqueue (enqueue (init_queue q) p1) p2) p3, m, 0⟩ p1 [p2, p3] hl0
    (by simp only [r1, TIME_QUANTUM]; decide)
  simp only [r1, TIME_QUANTUM] at c1 a1 f1
  norm_num [wrap32] at c1
  -- T2 runs from 2 to 4 and finishes
  have g2 : (s1.metrics p2).remaining_time = 2 := by rw [f1 p2 h12.symm, r2]
  obtain ⟨s2, e2, l2, c2, _, b2, f2⟩ := rr_loop_finish 12 s1 p2 [p3, p1] l1
    (by rw [g2]; decide)
  rw [g2, c1] at c2 b2
  norm_num [wrap32] at c2 b2
  -- T3 runs from 4 to 6 and is requeued with 2 left
  have g3 : (s2.metrics p3).remaining_time = 4 := by
    rw [f2 p3 h23.symm, f1 p3 h13.symm, r3]
  obtain ⟨s3, e3, l3, c3, a3, _, f3⟩ := rr_loop_requeue 11 s2 p3 [p1] l2
    (by rw [g3]; decide)
  rw [g3] at a3
  rw [c2] at c3
  simp only [TIME_QUANTUM] at c3 a3
  norm_num [wrap32] at c3
  -- T1 runs from 6 to 8 and is requeued with 1 left
  have g1 : (s3.metrics p1).remaining_time = 3 := by
    rw [f3 p1 h13, f2 p1 h12, a1]; rfl
  obtain ⟨s4, e4, l4, c4, a4, _, f4⟩ := rr_loop_requeue 10 s3 p1 [p3] l3
    (by rw [g1]; decide)
  rw [g1] at a4
  rw [c3] at c4
  simp only [TIME_QUANTUM] at c4 a4
  norm_num [wrap32] at c4
  -- T3 runs from 8 to 10 and finishes
  have g3b : (s4.metrics p3).remaining_time = 2 := by
    rw [f4 p3 h13.symm, a3]; rfl
  obtain ⟨s5, e5, l5, c5, _, b5, f5⟩ := rr_loop_finish 9 s4 p3 [p1] l4
    (by rw [g3b]; decide)
  rw [g3b, c4] at c5 b5
  norm_num [wrap32] at c5 b5
  -- T1 runs from 10 to 11 and finishes
  have g1b : (s5.metrics p1).remaining_time = 1 := by
    rw [f5 p1 h13, a4]; rfl
  obtain ⟨s6, e6, l6, _, _, b6, f6⟩ := rr_loop_finish 8 s5 p1 [] l5
    (by rw [g1b]; decide)
  rw [g1b, c5] at b6
  norm_num [wrap32] at b6
  have hq : is_queue_empty s6.q = true := (queue_empty_iff s6.q).2 l6
  refine ⟨s6, ?_, ?_, ?_, ?_⟩
  · rw [e1, e2, e3, e4, e5, e6, rr_loop_empty 8 s6 hq]
  · exact b6
  · rw [f6 p2 h12.symm, f5 p2 h23, f4 p2 h12.symm, f3 p2 h23, b2]
  · rw [f6 p3 h13.symm, b5]

/-- C4 (amended), instance: the transactions of `rrSample` at pointers 0, 1, 2. -/
theorem rr_example_completion_times_witness :
    ∃ s, round_robin_scheduling rrSample = some s
      ∧ (s.metrics 0).completion_time = 11
      ∧ (s.metrics 1).completion_time = 4
      ∧ (s.metrics 2).completion_time = 10 :=
  rr_example_completion_times ⟨fun _ => 0, 0, 0⟩ rrSampleMetrics 0 1 2
    (by decide) (by decide) (by decide) rfl rfl rfl

/-! ## The queue as a FIFO -/

theorem live_enqueueAll (ps : List Ptr) :
    ∀ q : ProcessQueue, q.size + ps.length < MAX_ACCOUNTS →
      (enqueueAll q ps).live = q.live ++ ps := by
  induction ps with
  | nil => intro q _; simp [enqueueAll]
  | cons p ps ih =>
    intro q h
    simp only [List.length_cons] at h
    have h1 : (enqueue q p).live = q.live ++ [p] := live_enqueue q p (by omega)
    have h2 : (enqueue q p).size = q.size + 1 := by
      rw [← live_length, h1, List.length_append, live_length]
      rfl
    rw [enqueueAll, ih (enqueue q p) (by omega), h1]
    simp

theorem dequeueN_live (n : Nat) :
    ∀ q : ProcessQueue, q.size = n →
      (dequeueN n q).1 = q.live ∧ is_queue_empty (dequeueN n q).2 = true := by
  induction n with
  | zero =>
    intro q h
    have hl : q.live = [] := by
      have := live_length q
      rw [h] at this
      exact List.length_eq_zero.1 this
    exact ⟨by rw [hl]; rfl, (queue_empty_iff q).2 hl⟩
  | succ n ih =>
    intro q h
    have he : is_queue_empty q = false := by
      cases hq : is_queue_empty q with
      | false => rfl
      | true =>
        have := (queue_empty_iff q).1 hq
        have h2 := live_length q
        rw [this, h] at h2
        cases h2
    have hs := dequeue_size q he
    have := ih (dequeue q).2 (by omega)
    simp only [dequeueN]
    rw [this.1, ← live_dequeue q he]
    exact ⟨rfl, this.2⟩

/-- Below the capacity the queue is a FIFO: after `init_queue` and fewer than MAX_ACCOUNTS
`enqueue` calls the queue is non-empty (when something was enqueued), as many `dequeue`
calls return the entries in the order they were enqueued, and the queue is then empty. -/
theorem fifo_below_capacity (q : ProcessQueue) (ps : List Ptr)
    (h : ps.length < MAX_ACCOUNTS) :
    (ps ≠ [] → is_queue_empty (enqueueAll (init_queue q) ps) = false)
    ∧ (dequeueN ps.length (enqueueAll (init_queue q) ps)).1 = ps
    ∧ is_queue_empty (dequeueN ps.length (enqueueAll (init_queue q) ps)).2 = true := by
  have hl : (enqueueAll (init_queue q) ps).live = ps := by
    rw [live_enqueueAll ps (init_queue q) (by rw [size_init_queue]; omega), live_init_queue]
    rfl
  have hs : (enqueueAll (init_queue q) ps).size = ps.length := by
    rw [← live_length, hl]
  have hd := dequeueN_live ps.length (enqueueAll (init_queue q) ps) hs
  refine ⟨?_, by rw [hd.1, hl], hd.2⟩
  intro hne
  cases hq : is_queue_empty (enqueueAll (init_queue q) ps) with
  | false => rfl
  | true =>
    have := (queue_empty_iff _).1 hq
    rw [hl] at this
    exact absurd this hne

/-- C16 (the code at the failing input). After `init_queue` and MAX_ACCOUNTS = 10 `enqueue`
calls `rear` has wrapped round to `front`: `is_queue_empty` returns true, and
`round_robin_scheduling` on that queue returns at once without running any transaction
(the clock stays 0 and the first record keeps its remaining time 5). With 9 entries the
queue is not empty. -/
theorem queue_of_ten_looks_empty :
    is_queue_empty (enqueueAll (init_queue rawQueue) [0, 1, 2, 3, 4, 5, 6, 7, 8, 9]) = true
    ∧ (round_robin_scheduling
          ⟨enqueueAll (init_queue rawQueue) [0, 1, 2, 3, 4, 5, 6, 7, 8, 9], rrSampleMetrics, 0⟩).map
        (fun s => (s.current_time, (s.metrics 0).remaining_time)) = some (0, 5)
    ∧ is_queue_empty (enqueueAll (init_queue rawQueue) [0, 1, 2, 3, 4, 5, 6, 7, 8]) = false := by
  decide

/-! ## The states at the loop test -/

theorem queue_nonempty_of_cons (q : ProcessQueue) (p : Ptr) (rest : List Ptr)
    (hl : q.live = p :: rest) : is_queue_empty q = false := by
  cases hq : is_queue_empty q with
  | false => rfl
  | true => rw [(queue_empty_iff q).1 hq] at hl; cases hl

/-- What one iteration does, seen on the list of live entries: the front entry `p` either has
more than a quantum left, gets a quantum and goes to the back, or finishes. -/
theorem rr_body_cases (s : SchedState) (he : is_queue_empty s.q = false) :
    ∃ (p : Ptr) (rest : List Ptr), s.q.live = p :: rest ∧ (dequeue s.q).1 = p
      ∧ (dequeue s.q).2.live = rest
      ∧ (∀ x, x ≠ p → (rr_body s).metrics x = s.metrics x)
      ∧ ((rr_body s).metrics p).arrival_time = (s.metrics p).arrival_time
      ∧ ((rr_body s).metrics p).execution_time = (s.metrics p).execution_time
      ∧ ((rr_body s).metrics p).turnaround_time
          = wrap32 (((rr_body s).metrics p).completion_time - (s.metrics p).arrival_time)
      ∧ ((rr_body s).metrics p).waiting_time
          = wrap32 (((rr_body s).metrics p).turnaround_time - (s.metrics p).execution_time)
      ∧ (((s.metrics p).remaining_time > TIME_QUANTUM
            ∧ (rr_body s).q.live = rest ++ [p]
            ∧ (rr_body s).current_time = wrap32 (s.current_time + TIME_QUANTUM)
            ∧ ((rr_body s).metrics p).remaining_time
                = (s.metrics p).remaining_time - TIME_QUANTUM
            ∧ ((rr_body s).metrics p).completion_time = (s.metrics p).completion_time)
          ∨ ((s.metrics p).remaining_time ≤ TIME_QUANTUM
            ∧ (rr_body s).q.live = rest
            ∧ (rr_body s).current_time
                = wrap32 (s.current_time + (s.metrics p).remaining_time)
            ∧ ((rr_body s).metrics p).remaining_time = 0
            ∧ ((rr_body s).metrics p).completion_time
                = wrap32 (s.current_time + (s.metrics p).remaining_time))) := by
  have hl := live_dequeue s.q he
  refine ⟨(dequeue s.q).1, (dequeue s.q).2.live, hl, rfl, rfl,
    fun x hx => rr_body_frame s x hx, ?_⟩
  by_cases hr : (s.metrics (dequeue s.q).1).remaining_time > TIME_QUANTUM
  · have hlive := rr_body_live_requeue s he hr
    rw [rr_body_requeue s hr] at hlive ⊢
    simp only [Function.update_same]
    exact ⟨trivial, trivial, trivial, trivial, Or.inl ⟨hr, hlive, trivial, trivial, trivial⟩⟩
  · rw [rr_body_finish s hr]
    simp only [Function.update_same]
    exact ⟨trivial, trivial, trivial, trivial,
      Or.inr ⟨not_lt.1 hr, trivial, trivial, trivial, trivial⟩⟩

/-- A property kept by every iteration on a non-empty queue holds at every loop test. -/
theorem rr_state_at_invariant (I : SchedState → Prop)
    (hI : ∀ s, is_queue_empty s.q = false → I s → I (rr_body s)) (k : Nat) :
    ∀ s sk : SchedState, rr_state_at k s = some sk → I s → I sk := by
  induction k with
  | zero =>
    intro s sk h hs
    simp only [rr_state_at, Option.some.injEq] at h
    rw [← h]
    exact hs
  | succ k ih =>
    intro s sk h hs
    cases hq : is_queue_empty s.q with
    | true => simp [rr_state_at, hq] at h
    | false =>
      simp only [rr_state_at, hq] at h
      exact ih (rr_body s) sk (by simpa using h) (hI s hq hs)

/-- The loop started at `s` continues from the state reached after `k` iterations. -/
theorem rr_loop_from_state_at (k : Nat) :
    ∀ (s sk : SchedState) (n : Nat), rr_state_at k s = some sk →
      rr_loop (k + n) s = rr_loop n sk := by
  induction k with
  | zero =>
    intro s sk n h
    simp only [rr_state_at, Option.some.injEq] at h
    rw [h, Nat.zero_add]
  | succ k ih =>
    intro s sk n h
    cases hq : is_queue_empty s.q with
    | true => simp [rr_state_at, hq] at h
    | false =>
      simp only [rr_state_at, hq] at h
      rw [show k + 1 + n = (k + n) + 1 by omega, rr_loop_step (k + n) s hq]
      exact ih (rr_body s) sk n (by simpa using h)

/-- The state at loop exit was reached by some number of iterations. -/
theorem rr_loop_exit_state (n : Nat) :
    ∀ s s1 : SchedState, rr_loop n s = some s1 →
      ∃ k, rr_state_at k s = some s1 ∧ is_queue_empty s1.q = true := by
  induction n with
  | zero =>
    intro s s1 h
    cases hq : is_queue_empty s.q with
    | true =>
      rw [rr_loop_empty 0 s hq, Option.some.injEq] at h
      exact ⟨0, by rw [← h]; rfl, by rw [← h]; exact hq⟩
    | false => simp [rr_loop, hq] at h
  | succ n ih =>
    intro s s1 h
    cases hq : is_queue_empty s.q with
    | true =>
      rw [rr_loop_empty _ s hq, Option.some.injEq] at h
      exact ⟨0, by rw [← h]; rfl, by rw [← h]; exact hq⟩
    | false =>
      rw [rr_loop_step n s hq] at h
      obtain ⟨k, hk, he⟩ := ih (rr_body s) s1 h
      exact ⟨k + 1, by simp only [rr_state_at, hq]; simpa using hk, he⟩

/-- A loop that runs at least once has a last iteration. -/
theorem rr_loop_last (n : Nat) :
    ∀ s s1 : SchedState, rr_loop n s = some s1 → is_queue_empty s.q = false →
      ∃ k sk, rr_state_at k s = some sk ∧ is_queue_empty sk.q = false ∧ rr_body sk = s1 := by
  induction n with
  | zero =>
    intro s s1 h hq
    simp [rr_loop, hq] at h
  | succ n ih =>
    intro s s1 h hq
    rw [rr_loop_step n s hq] at h
    cases hq2 : is_queue_empty (rr_body s).q with
    | true =>
      rw [rr_loop_empty n _ hq2, Option.some.injEq] at h
      exact ⟨0, s, rfl, hq, h⟩
    | false =>
      obtain ⟨k, sk, hk, he, hb⟩ := ih (rr_body s) s1 h hq2
      exact ⟨k + 1, sk, by simp only [rr_state_at, hq]; simpa using hk, he, hb⟩

/-- If the loop test fails after exactly `k` iterations, `round_robin_scheduling` returns the
state reached then. -/
theorem round_robin_of_state_at (k : Nat) (s sk : SchedState)
    (h : rr_state_at k s = some sk) (he : is_queue_empty sk.q = true) :
    round_robin_scheduling s = some sk := by
  obtain ⟨s1, h1, _⟩ := round_robin_returns s
  have e1 : rr_loop (k + 0) s = some sk := by
    rw [rr_loop_from_state_at k s sk 0 h, rr_loop_empty 0 sk he]
  have e2 := rr_loop_mono (k + 0) s sk (rr_bound s) e1
  have e3 := rr_loop_mono (rr_bound s) s s1 k h1
  rw [show k + 0 + rr_bound s = rr_bound s + k by omega, e3] at e2
  rw [h1, e2]

/-- Distinct live entries stay distinct, stay among the former ones, and do not grow in
number. -/
theorem rr_body_nodup (s : SchedState) (he : is_queue_empty s.q = false)
    (hd : s.q.live.Nodup) :
    (rr_body s).q.live.Nodup ∧ (rr_body s).q.live.length ≤ s.q.live.length
      ∧ ∀ x ∈ (rr_body s).q.live, x ∈ s.q.live := by
  obtain ⟨p, rest, hl, _, _, _, _, _, _, _, hc⟩ := rr_body_cases s he
  rw [hl] at hd ⊢
  have hp := (List.nodup_cons.1 hd).1
  have hrest := (List.nodup_cons.1 hd).2
  rcases hc with ⟨_, hlive, _⟩ | ⟨_, hlive, _⟩
  · rw [hlive]
    refine ⟨?_, by simp, ?_⟩
    · rw [List.nodup_append]
      refine ⟨hrest, List.nodup_singleton p, ?_⟩
      intro a ha hb
      rw [List.mem_singleton] at hb
      rw [hb] at ha
      exact hp ha
    · intro x hx
      rcases List.mem_append.1 hx with h | h
      · exact List.mem_cons_of_mem p h
      · rw [List.mem_singleton] at h
        rw [h]
        exact List.mem_cons_self p rest
  · rw [hlive]
    exact ⟨hrest, by simp, fun x hx => List.mem_cons_of_mem p hx⟩

/-- C17. If `round_robin_scheduling` is started on a queue whose live entries are fewer than
MAX_ACCOUNTS and pairwise distinct, then at the start of every loop iteration (the state
`sk` at the loop test after any number `k` of iterations) the live entries are pairwise
distinct and no more numerous than at the start; and the iteration run from there either
leaves the other entries as the queue, or appends to them the transaction it has just
dequeued, and this only when that transaction's remaining time after the quantum was
subtracted is > 0. -/
theorem rr_queue_invariant (s : SchedState) (_hlt : s.q.live.length < MAX_ACCOUNTS)
    (hd : s.q.live.Nodup) (k : Nat) (sk : SchedState) (hk : rr_state_at k s = some sk) :
    sk.q.live.Nodup
    ∧ sk.q.live.length ≤ s.q.live.length
    ∧ (is_queue_empty sk.q = false →
        (rr_body sk).q.live = (dequeue sk.q).2.live
        ∨ ((rr_body sk).q.live = (dequeue sk.q).2.live ++ [(dequeue sk.q).1]
            ∧ ((rr_body sk).metrics (dequeue sk.q).1).remaining_time
                = (sk.metrics (dequeue sk.q).1).remaining_time - TIME_QUANTUM
            ∧ ((rr_body sk).metrics (dequeue sk.q).1).remaining_time > 0)) := by
  have inv := rr_state_at_invariant
    (fun t => t.q.live.Nodup ∧ t.q.live.length ≤ s.q.live.length)
    (fun t hq ht =>
      ⟨(rr_body_nodup t hq ht.1).1, le_trans (rr_body_nodup t hq ht.1).2.1 ht.2⟩)
    k s sk hk ⟨hd, le_refl _⟩
  refine ⟨inv.1, inv.2, ?_⟩
  intro he
  obtain ⟨p, rest, _, hp, hrest, _, _, _, _, _, hc⟩ := rr_body_cases sk he
  rw [hp, hrest]
  rcases hc with ⟨hr, hlive, _, hrem, _⟩ | ⟨_, hlive, _⟩
  · right
    refine ⟨hlive, hrem, ?_⟩
    rw [hrem]
    simp only [TIME_QUANTUM] at hr ⊢
    omega
  · left
    exact hlive

/-- C17, instance: `rrSample` after three iterations (T1 requeued, T2 finished, T3 requeued);
the queue is not empty there and the fourth iteration requeues T1. -/
theorem rr_queue_invariant_witness :
    ∃ sk, rr_state_at 3 rrSample = some sk
      ∧ sk.q.live.Nodup
      ∧ sk.q.live.length ≤ rrSample.q.live.length
      ∧ ((rr_body sk).q.live = (dequeue sk.q).2.live
          ∨ ((rr_body sk).q.live = (dequeue sk.q).2.live ++ [(dequeue sk.q).1]
              ∧ ((rr_body sk).metrics (dequeue sk.q).1).remaining_time
                  = (sk.metrics (dequeue sk.q).1).remaining_time - TIME_QUANTUM
              ∧ ((rr_body sk).metrics (dequeue sk.q).1).remaining_time > 0)) :=
  ⟨rr_body (rr_body (rr_body rrSample)), rfl,
    (rr_queue_invariant rrSample (by decide) (by decide) 3
      (rr_body (rr_body (rr_body rrSample))) rfl).1,
    (rr_queue_invariant rrSample (by decide) (by decide) 3
      (rr_body (rr_body (rr_body rrSample))) rfl).2.1,
    (rr_queue_invariant rrSample (by decide) (by decide) 3
      (rr_body (rr_body (rr_body rrSample))) rfl).2.2 (by decide)⟩

/-! ## The number of iterations -/

theorem slices_small (r : Int) (h : r ≤ TIME_QUANTUM) : slices r = 1 := by
  unfold slices
  apply max_eq_left
  rw [Int.ceil_le]
  have : ((r : ℚ)) ≤ 2 := by exact_mod_cast h
  simp only [TIME_QUANTUM]
  push_cast
  linarith

theorem slices_large (r : Int) (h : r > TIME_QUANTUM) :
    slices (r - TIME_QUANTUM) + 1 = slices r := by
  have hq : (2 : ℚ) < (r : ℚ) := by exact_mod_cast h
  have e : ((r - TIME_QUANTUM : Int) : ℚ) / (TIME_QUANTUM : ℚ)
      = (r : ℚ) / (TIME_QUANTUM : ℚ) - 1 := by
    simp only [TIME_QUANTUM]
    push_cast
    ring
  have h1 : (1 : Int) < ⌈(r : ℚ) / (TIME_QUANTUM : ℚ)⌉ := by
    rw [Int.lt_ceil]
    simp only [TIME_QUANTUM]
    push_cast
    linarith
  unfold slices
  rw [e, Int.ceil_sub_one, max_eq_right (by omega), max_eq_right (by omega)]
  omega

theorem slices_pos (r : Int) : 1 ≤ slices r := le_max_left _ _

/-- A sum over entries whose records were not touched. -/
theorem sum_map_frame (f : TransactionMetrics → Int) (l : List Ptr) (m1 m2 : Metrics)
    (h : ∀ x ∈ l, m2 x = m1 x) :
    (l.map (fun x => f (m2 x))).sum = (l.map (fun x => f (m1 x))).sum := by
  congr 1
  apply List.map_congr_left
  intro x hx
  rw [h x hx]

/-- With distinct live entries every iteration lowers `rr_iterations` by exactly one. -/
theorem rr_iterations_step (s : SchedState) (he : is_queue_empty s.q = false)
    (hd : s.q.live.Nodup) : rr_iterations (rr_body s) + 1 = rr_iterations s := by
  obtain ⟨p, rest, hl, _, _, hframe, _, _, _, _, hc⟩ := rr_body_cases s he
  rw [hl] at hd
  have hp := (List.nodup_cons.1 hd).1
  have hrest : (rest.map (fun x => slices ((rr_body s).metrics x).remaining_time)).sum
      = (rest.map (fun x => slices (s.metrics x).remaining_time)).sum :=
    sum_map_frame (fun t => slices t.remaining_time) rest s.metrics (rr_body s).metrics
      (fun x hx => hframe x (fun e => hp (by rw [← e]; exact hx)))
  unfold rr_iterations
  rcases hc with ⟨hr, hlive, _, hrem, _⟩ | ⟨hr, hlive, _⟩
  · rw [hlive, hl]
    simp only [List.map_append, List.sum_append, List.map_cons, List.sum_cons, List.map_nil,
      List.sum_nil]
    rw [hrest, hrem]
    have := slices_large _ hr
    omega
  · rw [hlive, hl]
    simp only [List.map_cons, List.sum_cons]
    rw [hrest, slices_small _ hr]
    omega

theorem rr_iterations_ge (s : SchedState) : (s.q.live.length : Int) ≤ rr_iterations s := by
  unfold rr_iterations
  induction s.q.live with
  | nil => simp
  | cons p rest ih =>
    simp only [List.length_cons, List.map_cons, List.sum_cons]
    have := slices_pos (s.metrics p).remaining_time
    push_cast
    omega

/-- With distinct live entries the loop test fails after exactly `rr_iterations` iterations. -/
theorem rr_exact_iterations (n : Nat) :
    ∀ s : SchedState, s.q.live.Nodup → rr_iterations s = (n : Int) →
      ∃ s1, rr_state_at n s = some s1 ∧ is_queue_empty s1.q = true := by
  induction n with
  | zero =>
    intro s _ h
    have hge := rr_iterations_ge s
    have hl : s.q.live = [] := by
      apply List.length_eq_zero.1
      rw [h] at hge
      omega
    exact ⟨s, rfl, (queue_empty_iff s.q).2 hl⟩
  | succ n ih =>
    intro s hd h
    have he : is_queue_empty s.q = false := by
      cases hq : is_queue_empty s.q with
      | false => rfl
      | true =>
        have hl := (queue_empty_iff s.q).1 hq
        simp only [rr_iterations, hl, List.map_nil, List.sum_nil] at h
        omega
    have hstep := rr_iterations_step s he hd
    obtain ⟨s1, h1, h2⟩ := ih (rr_body s) (rr_body_nodup s he hd).1 (by push_cast at h; omega)
    exact ⟨s1, by simp only [rr_state_at, he]; simpa using h1, h2⟩

/-- C18. `round_robin_scheduling` terminates: for every queue with fewer than MAX_ACCOUNTS
pairwise distinct live entries and arbitrary integer remaining times (zero and negative
included), the loop test fails after exactly n iterations of the body, where n is the sum
over the entries of max(1, ceil(remaining_time / TIME_QUANTUM)), and the function returns
the state reached then, with the queue empty. -/
theorem rr_iteration_count (s : SchedState) (_hlt : s.q.live.length < MAX_ACCOUNTS)
    (hd : s.q.live.Nodup) :
    ∃ (n : Nat) (s1 : SchedState), (n : Int) = rr_iterations s
      ∧ rr_state_at n s = some s1
      ∧ is_queue_empty s1.q = true
      ∧ round_robin_scheduling s = some s1 := by
  have hge := rr_iterations_ge s
  have hn : ((rr_iterations s).toNat : Int) = rr_iterations s :=
    Int.toNat_of_nonneg (by omega)
  obtain ⟨s1, h1, h2⟩ := rr_exact_iterations (rr_iterations s).toNat s hd hn.symm
  exact ⟨(rr_iterations s).toNat, s1, hn, h1, h2,
    round_robin_of_state_at _ s s1 h1 h2⟩

/-- C18, instance: `rrSample` (remaining times 5, 2, 4) takes 3 + 1 + 2 = 6 iterations. -/
theorem rr_iteration_count_witness :
    rr_iterations rrSample = 6
    ∧ ∃ s1 : SchedState, rr_state_at 6 rrSample = some s1
      ∧ is_queue_empty s1.q = true
      ∧ round_robin_scheduling rrSample = some s1 := by
  have e : rr_iterations rrSample = 6 := by
    have hl : rrSample.q.live = [0, 1, 2] := by decide
    have a0 : (rrSample.metrics 0).remaining_time = 5 := rfl
    have a1 : (rrSample.metrics 1).remaining_time = 2 := rfl
    have a2 : (rrSample.metrics 2).remaining_time = 4 := rfl
    have s1 : slices 1 = 1 := slices_small 1 (by decide)
    have s2 : slices 2 = 1 := slices_small 2 (by decide)
    have s3 : slices (3 - TIME_QUANTUM) + 1 = slices 3 := slices_large 3 (by decide)
    have s4 : slices (4 - TIME_QUANTUM) + 1 = slices 4 := slices_large 4 (by decide)
    have s5 : slices (5 - TIME_QUANTUM) + 1 = slices 5 := slices_large 5 (by decide)
    have e3 : (3 : Int) - TIME_QUANTUM = 1 := by decide
    have e4 : (4 : Int) - TIME_QUANTUM = 2 := by decide
    have e5 : (5 : Int) - TIME_QUANTUM = 3 := by decide
    rw [e3, s1] at s3
    rw [e4, s2] at s4
    rw [e5, ← s3] at s5
    simp only [rr_iterations, hl, List.map_cons, List.map_nil, List.sum_cons, List.sum_nil,
      a0, a1, a2, s2, ← s4, ← s5]
    decide
  obtain ⟨n, s1, hn, h1, h2, h3⟩ := rr_iteration_count rrSample (by decide) (by decide)
  have hn6 : n = 6 := by omega
  subst hn6
  exact ⟨e, s1, h1, h2, h3⟩

/-! ## The clock -/

theorem sum_map_nonneg (f : Ptr → Int) (l : List Ptr) (h : ∀ x ∈ l, 0 ≤ f x) :
    0 ≤ (l.map f).sum := by
  induction l with
  | nil => simp
  | cons a l ih =>
    simp only [List.map_cons, List.sum_cons]
    have h1 := h a (List.mem_cons_self a l)
    have h2 := ih (fun x hx => h x (List.mem_cons_of_mem a hx))
    omega

/-- With distinct live entries every iteration takes from the remaining work what it adds
to the clock (before the clock wraps). -/
theorem rr_body_total (s : SchedState) (he : is_queue_empty s.q = false)
    (hd : s.q.live.Nodup) :
    ∃ d : Int, remaining_total (rr_body s) = remaining_total s - d
      ∧ (rr_body s).current_time = wrap32 (s.current_time + d)
      ∧ ((s.metrics (dequeue s.q).1).remaining_time > TIME_QUANTUM → d = TIME_QUANTUM)
      ∧ ((s.metrics (dequeue s.q).1).remaining_time ≤ TIME_QUANTUM →
          d = (s.metrics (dequeue s.q).1).remaining_time
          ∧ ((rr_body s).metrics (dequeue s.q).1).completion_time
              = wrap32 (s.current_time + d))
      ∧ ((∀ x ∈ s.q.live, 0 ≤ (s.metrics x).remaining_time) →
          0 ≤ d ∧ d ≤ (s.metrics (dequeue s.q).1).remaining_time
            ∧ d ≤ remaining_total s) := by
  obtain ⟨p, rest, hl, hp, _, hframe, _, _, _, _, hc⟩ := rr_body_cases s he
  rw [hl] at hd
  have hpn := (List.nodup_cons.1 hd).1
  have hrest : (rest.map (fun x => ((rr_body s).metrics x).remaining_time)).sum
      = (rest.map (fun x => (s.metrics x).remaining_time)).sum :=
    sum_map_frame (fun t => t.remaining_time) rest s.metrics (rr_body s).metrics
      (fun x hx => hframe x (fun e => hpn (by rw [← e]; exact hx)))
  have htot : remaining_total s
      = (s.metrics p).remaining_time + (rest.map (fun x => (s.metrics x).remaining_time)).sum := by
    simp only [remaining_total, hl, List.map_cons, List.sum_cons]
  have hnn : (∀ x ∈ s.q.live, 0 ≤ (s.metrics x).remaining_time) →
      0 ≤ (s.metrics p).remaining_time
        ∧ 0 ≤ (rest.map (fun x => (s.metrics x).remaining_time)).sum := by
    intro h
    rw [hl] at h
    exact ⟨h p (List.mem_cons_self p rest),
      sum_map_nonneg _ rest (fun x hx => h x (List.mem_cons_of_mem p hx))⟩
  rw [hp]
  rcases hc with ⟨hr, hlive, hclock, hrem, _⟩ | ⟨hr, hlive, hclock, _, hcompl⟩
  · refine ⟨TIME_QUANTUM, ?_, hclock, fun _ => rfl, ?_, ?_⟩
    · rw [htot]
      simp only [remaining_total, hlive, List.map_append, List.sum_append, List.map_cons,
        List.sum_cons, List.map_nil, List.sum_nil]
      rw [hrest, hrem]
      omega
    · intro h
      simp only [TIME_QUANTUM] at hr h
      omega
    · intro h
      have := hnn h
      simp only [TIME_QUANTUM] at hr ⊢
      omega
  · refine ⟨(s.metrics p).remaining_time, ?_, hclock, ?_, fun _ => ⟨rfl, hcompl⟩, ?_⟩
    · rw [htot]
      simp only [remaining_total, hlive]
      rw [hrest]
      omega
    · intro h
      simp only [TIME_QUANTUM] at hr h
      omega
    · intro h
      have := hnn h
      omega

/-- With distinct live entries every iteration keeps clock + remaining work modulo 2^32. -/
theorem rr_body_clock (s : SchedState) (he : is_queue_empty s.q = false)
    (hd : s.q.live.Nodup) :
    wrap32 ((rr_body s).current_time + remaining_total (rr_body s))
      = wrap32 (s.current_time + remaining_total s) := by
  obtain ⟨d, htot, hclk, _⟩ := rr_body_total s he hd
  rw [htot, hclk, wrap32_add_wrap]
  congr 1
  omega

/-- After an iteration the clock is an `int`. -/
theorem rr_body_clock_range (s : SchedState) (he : is_queue_empty s.q = false) :
    INT_MIN ≤ (rr_body s).current_time ∧ (rr_body s).current_time ≤ INT_MAX := by
  obtain ⟨p, rest, _, _, _, _, _, _, _, _, hc⟩ := rr_body_cases s he
  rcases hc with ⟨_, _, hclock, _⟩ | ⟨_, _, hclock, _⟩
  · rw [hclock]
    exact wrap32_range _
  · rw [hclock]
    exact wrap32_range _

theorem rr_body_ClockInv (s t : SchedState) (hlo : INT_MIN ≤ s.current_time)
    (hhi : s.current_time + remaining_total s ≤ INT_MAX)
    (he : is_queue_empty t.q = false) (h : ClockInv s t) : ClockInv s (rr_body t) := by
  obtain ⟨hd, hsub, hclk, hsum, hnn, hdone⟩ := h
  obtain ⟨d, htot, hclock, _, hfin, hdb⟩ := rr_body_total t he hd
  obtain ⟨hd0, hdp, hdt⟩ := hdb hnn
  obtain ⟨p, rest, hl, hp, _, hframe, _, _, _, _, hc⟩ := rr_body_cases t he
  rw [hp] at hfin hdp
  have hnd := rr_body_nodup t he hd
  have hexact : (rr_body t).current_time = t.current_time + d := by
    rw [hclock]
    exact wrap32_id _ (by omega) (by omega)
  refine ⟨hnd.1, fun x hx => hsub x (hnd.2.2 x hx), by omega, by omega, ?_, ?_⟩
  · intro x hx
    by_cases e : x = p
    · rw [e]
      rcases hc with ⟨hr, _, _, hrem, _⟩ | ⟨_, _, _, hrem, _⟩
      · rw [hrem]
        simp only [TIME_QUANTUM] at hr ⊢
        omega
      · rw [hrem]
    · rw [hframe x e]
      exact hnn x (hnd.2.2 x hx)
  · intro x hx
    by_cases e : x = p
    · rw [e]
      rcases hc with ⟨_, hlive, _⟩ | ⟨hr, _, _, _, _⟩
      · left
        rw [hlive]
        simp
      · right
        obtain ⟨hdeq, hcompl⟩ := hfin hr
        rw [hcompl, ← hclock, hexact]
        exact ⟨by omega, le_refl _⟩
    · rcases hdone x hx with h1 | h1
      · left
        rw [hl] at h1
        have hxr : x ∈ rest := by
          rcases List.mem_cons.1 h1 with h2 | h2
          · exact absurd h2 e
          · exact h2
        rcases hc with ⟨_, hlive, _⟩ | ⟨_, hlive, _⟩
        · rw [hlive]
          exact List.mem_append_left _ hxr
        · rw [hlive]
          exact hxr
      · right
        rw [hframe x e]
        exact ⟨h1.1, by omega⟩

/-- C19 (as stated, refuted). One transaction with remaining time 5, clock 2147483646: the
`int` clock overflows in the first iteration, the run ends with the clock at -2147483645,
not at 2147483646 + 5, and the completion time -2147483645 is below the initial clock. -/
theorem rr_clock_overflow :
    overflowSampleB.q.live.length < MAX_ACCOUNTS ∧ overflowSampleB.q.live.Nodup
    ∧ (∀ p ∈ overflowSampleB.q.live, 0 ≤ (overflowSampleB.metrics p).remaining_time)
    ∧ remaining_total overflowSampleB = 5
    ∧ ∃ s1, round_robin_scheduling overflowSampleB = some s1
      ∧ s1.current_time = -2147483645
      ∧ s1.current_time ≠ overflowSampleB.current_time + remaining_total overflowSampleB
      ∧ (s1.metrics 0).completion_time < overflowSampleB.current_time := by
  decide

/-- C19 (amended). For every queue with fewer than MAX_ACCOUNTS pairwise distinct live entries
and every initial clock c0 (an `int`), `round_robin_scheduling` returns with the clock
equal to the 32-bit `int` value (wrapping on overflow) of c0 plus the sum of the entries'
initial remaining times, hence to that sum itself whenever it lies in [INT_MIN, INT_MAX];
when all initial remaining times are >= 0 and c0 plus their sum is <= INT_MAX, the final
clock is that sum and every entry's completion_time lies between c0 and the final clock;
and the last entry to finish (the one dequeued in the last iteration) has completion_time
equal to the final clock. -/
theorem rr_clock_conservation (s : SchedState) (_hlt : s.q.live.length < MAX_ACCOUNTS)
    (hd : s.q.live.Nodup)
    (hc0 : INT_MIN ≤ s.current_time ∧ s.current_time ≤ INT_MAX) :
    ∃ s1, round_robin_scheduling s = some s1
      ∧ s1.current_time = wrap32 (s.current_time + remaining_total s)
      ∧ (INT_MIN ≤ s.current_time + remaining_total s →
          s.current_time + remaining_total s ≤ INT_MAX →
          s1.current_time = s.current_time + remaining_total s)
      ∧ ((∀ p ∈ s.q.live, 0 ≤ (s.metrics p).remaining_time) →
          s.current_time + remaining_total s ≤ INT_MAX →
          s1.current_time = s.current_time + remaining_total s
          ∧ ∀ p ∈ s.q.live, s.current_time ≤ (s1.metrics p).completion_time
            ∧ (s1.metrics p).completion_time ≤ s1.current_time)
      ∧ (s.q.live ≠ [] →
          ∃ (k : Nat) (sk : SchedState), rr_state_at k s = some sk
            ∧ is_queue_empty sk.q = false ∧ rr_body sk = s1
            ∧ (dequeue sk.q).1 ∈ s.q.live
            ∧ (s1.metrics (dequeue sk.q).1).completion_time = s1.current_time) := by
  obtain ⟨s1, h1, he⟩ := round_robin_returns s
  have hl1 : s1.q.live = [] := (queue_empty_iff s1.q).1 he
  have hwrap : s1.current_time = wrap32 (s.current_time + remaining_total s) := by
    have inv := rr_loop_invariant
      (fun t => t.q.live.Nodup
        ∧ (INT_MIN ≤ t.current_time ∧ t.current_time ≤ INT_MAX)
        ∧ wrap32 (t.current_time + remaining_total t)
            = wrap32 (s.current_time + remaining_total s))
      (fun t hq ht => ⟨(rr_body_nodup t hq ht.1).1, rr_body_clock_range t hq,
        by rw [rr_body_clock t hq ht.1]; exact ht.2.2⟩)
      (rr_bound s) s s1 h1 ⟨hd, hc0, rfl⟩
    have h2 := inv.1.2.2
    simp only [remaining_total, hl1, List.map_nil, List.sum_nil, add_zero] at h2
    rw [wrap32_id _ inv.1.2.1.1 inv.1.2.1.2] at h2
    exact h2
  refine ⟨s1, h1, hwrap, ?_, ?_, ?_⟩
  · intro hlo hhi
    rw [hwrap]
    exact wrap32_id _ hlo hhi
  · intro hnn hhi
    have inv := rr_loop_invariant (ClockInv s)
      (fun t hq ht => rr_body_ClockInv s t hc0.1 hhi hq ht)
      (rr_bound s) s s1 h1
      ⟨hd, fun _ hx => hx, le_refl _, rfl, hnn, fun _ hx => Or.inl hx⟩
    obtain ⟨_, _, _, hsum, _, hdone⟩ := inv.1
    simp only [remaining_total, hl1, List.map_nil, List.sum_nil, add_zero] at hsum
    refine ⟨hsum, ?_⟩
    intro p hp
    rcases hdone p hp with h | h
    · rw [hl1] at h
      exact absurd h (List.not_mem_nil p)
    · exact h
  · intro hne
    have hq : is_queue_empty s.q = false := by
      cases hq : is_queue_empty s.q with
      | false => rfl
      | true => exact absurd ((queue_empty_iff s.q).1 hq) hne
    obtain ⟨k, sk, hk, hek, hb⟩ := rr_loop_last (rr_bound s) s s1 h1 hq
    have inv := rr_state_at_invariant
      (fun t => t.q.live.Nodup ∧ ∀ x ∈ t.q.live, x ∈ s.q.live)
      (fun t hq ht => ⟨(rr_body_nodup t hq ht.1).1,
        fun x hx => ht.2 x ((rr_body_nodup t hq ht.1).2.2 x hx)⟩)
      k s sk hk ⟨hd, fun _ hx => hx⟩
    obtain ⟨p, rest, hl, hp, _, _, _, _, _, _, hc⟩ := rr_body_cases sk hek
    refine ⟨k, sk, hk, hek, hb, ?_, ?_⟩
    · rw [hp]
      exact inv.2 p (by rw [hl]; exact List.mem_cons_self p rest)
    · rw [hp, ← hb]
      rcases hc with ⟨_, hlive, _⟩ | ⟨_, _, hclock, _, hcompl⟩
      · rw [hb, hl1] at hlive
        simp at hlive
      · rw [hcompl, hclock]

/-- C19 (amended), instance: `rrSample` (clock 0, remaining times 5, 2, 4) ends with clock 11,
every completion time lies between 0 and 11, and the entry of the last iteration completes
at the final clock. -/
theorem rr_clock_conservation_witness :
    ∃ s1, round_robin_scheduling rrSample = some s1
      ∧ s1.current_time = 11
      ∧ (∀ p ∈ rrSample.q.live, rrSample.current_time ≤ (s1.metrics p).completion_time
            ∧ (s1.metrics p).completion_time ≤ s1.current_time)
      ∧ ∃ (k : Nat) (sk : SchedState), rr_state_at k rrSample = some sk
            ∧ is_queue_empty sk.q = false ∧ rr_body sk = s1
            ∧ (dequeue sk.q).1 ∈ rrSample.q.live
            ∧ (s1.metrics (dequeue sk.q).1).completion_time = s1.current_time := by
  obtain ⟨s1, h1, _, h2, h3, h4⟩ :=
    rr_clock_conservation rrSample (by decide) (by decide) (by decide)
  exact ⟨s1, h1, by rw [h2 (by decide) (by decide)]; decide,
    (h3 (by decide) (by decide)).2, h4 (by decide)⟩

/-! ## Waiting times -/

theorem rr_body_WaitInv (s t : SchedState) (hlo : INT_MIN ≤ s.current_time)
    (hhi : s.current_time + remaining_total s ≤ INT_MAX)
    (harr : ∀ p ∈ s.q.live,
      (s.metrics p).arrival_time ≤ s.current_time
      ∧ 1 ≤ (s.metrics p).execution_time
      ∧ s.current_time + remaining_total s - (s.metrics p).arrival_time ≤ INT_MAX)
    (he : is_queue_empty t.q = false) (h : WaitInv s t) : WaitInv s (rr_body t) := by
  obtain ⟨hd, hsub, hclk, hsum, hall⟩ := h
  have hnn : ∀ x ∈ t.q.live, 0 ≤ (t.metrics x).remaining_time := by
    intro x hx
    rcases (hall x (hsub x hx)).2.2 with h1 | h1
    · omega
    · exact absurd hx h1.1
  obtain ⟨d, htot, hclock, hdQ, hfin, hdb⟩ := rr_body_total t he hd
  obtain ⟨hd0, hdp, hdt⟩ := hdb hnn
  obtain ⟨p, rest, hl, hpe, _, hframe, harr', hexe, htat, hwt, hc⟩ := rr_body_cases t he
  rw [hpe] at hfin hdp hdQ
  have hnd := rr_body_nodup t he hd
  have hexact : (rr_body t).current_time = t.current_time + d := by
    rw [hclock]
    exact wrap32_id _ (by omega) (by omega)
  have hpl : p ∈ t.q.live := by rw [hl]; exact List.mem_cons_self p rest
  have hp0 := hall p (hsub p hpl)
  have hps := harr p (hsub p hpl)
  have hprest : p ∉ rest := by
    rw [hl] at hd
    exact (List.nodup_cons.1 hd).1
  refine ⟨hnd.1, fun x hx => hsub x (hnd.2.2 x hx), by omega, by omega, ?_⟩
  intro x hx
  by_cases e : x = p
  · rw [e]
    have hp1 : 1 ≤ (t.metrics p).remaining_time
        ∧ s.current_time + (s.metrics p).execution_time
          ≤ t.current_time + (t.metrics p).remaining_time := by
      rcases hp0.2.2 with h1 | h1
      · exact ⟨h1.2.1, h1.2.2⟩
      · exact absurd hpl h1.1
    refine ⟨by rw [hexe]; exact hp0.1, by rw [harr']; exact hp0.2.1, ?_⟩
    rcases hc with ⟨hr, hlive, _, hrem, _⟩ | ⟨hr, hlive, _, _, _⟩
    · left
      have hdq : d = TIME_QUANTUM := hdQ hr
      refine ⟨by rw [hlive]; simp, ?_, ?_⟩
      · rw [hrem]
        simp only [TIME_QUANTUM] at hr ⊢
        omega
      · rw [hrem, hexact]
        simp only [TIME_QUANTUM] at hdq ⊢
        omega
    · right
      obtain ⟨hdeq, hcompl⟩ := hfin hr
      have hc1 : ((rr_body t).metrics p).completion_time
          = t.current_time + (t.metrics p).remaining_time := by
        rw [hcompl, ← hclock, hexact, hdeq]
      have ht1 : ((rr_body t).metrics p).turnaround_time
          = ((rr_body t).metrics p).completion_time - (s.metrics p).arrival_time := by
        rw [htat, hp0.2.1]
        apply wrap32_id
        · rw [hc1]
          simp only [INT_MIN]
          omega
        · rw [hc1]
          omega
      have hw1 : ((rr_body t).metrics p).waiting_time
          = ((rr_body t).metrics p).turnaround_time - (s.metrics p).execution_time := by
        rw [hwt, hp0.1]
        apply wrap32_id
        · rw [ht1, hc1]
          simp only [INT_MIN]
          omega
        · rw [ht1, hc1]
          omega
      refine ⟨by rw [hlive]; exact hprest, ?_, ht1, hw1⟩
      rw [hc1]
      exact hp1.2
  · have hx0 := hall x hx
    rw [hframe x e]
    refine ⟨hx0.1, hx0.2.1, ?_⟩
    rcases hx0.2.2 with h1 | h1
    · left
      have hxr : x ∈ rest := by
        have := h1.1
        rw [hl] at this
        rcases List.mem_cons.1 this with h2 | h2
        · exact absurd h2 e
        · exact h2
      refine ⟨?_, h1.2.1, by omega⟩
      rcases hc with ⟨_, hlive, _⟩ | ⟨_, hlive, _⟩
      · rw [hlive]
        exact List.mem_append_left _ hxr
      · rw [hlive]
        exact hxr
    · right
      exact ⟨fun hm => h1.1 (hnd.2.2 x hm), h1.2⟩

/-- C20 (as stated, refuted). One transaction with remaining time = execution time = 5 and
arrival time 0, clock 2147483646 (so arrival <= clock): the `int` clock overflows and the
transaction is left with completion_time = turnaround_time = -2147483645, below initial
clock + execution time and below its execution time. -/
theorem rr_waiting_overflow :
    overflowSampleB.q.live.length < MAX_ACCOUNTS ∧ overflowSampleB.q.live.Nodup
    ∧ (∀ p ∈ overflowSampleB.q.live,
        (overflowSampleB.metrics p).remaining_time = (overflowSampleB.metrics p).execution_time
        ∧ 1 ≤ (overflowSampleB.metrics p).execution_time
        ∧ (overflowSampleB.metrics p).arrival_time ≤ overflowSampleB.current_time)
    ∧ ∃ s1, round_robin_scheduling overflowSampleB = some s1
      ∧ (s1.metrics 0).completion_time = -2147483645
      ∧ (s1.metrics 0).turnaround_time = -2147483645
      ∧ ¬ ((s1.metrics 0).completion_time
            ≥ overflowSampleB.current_time + (s1.metrics 0).execution_time)
      ∧ ¬ ((s1.metrics 0).turnaround_time ≥ (s1.metrics 0).execution_time) := by
  decide

/-- C20 (amended). For every queue with fewer than MAX_ACCOUNTS pairwise distinct live entries
in which each entry has remaining_time = execution_time >= 1 and arrival_time <= the
initial clock, and in which no `int` overflows (the initial clock is >= INT_MIN, the initial
clock plus the sum of the execution times is <= INT_MAX, and so is that sum minus each
entry's arrival_time), `round_robin_scheduling` returns, and then every entry keeps its
execution time and satisfies completion_time >= initial clock + execution_time,
turnaround_time >= execution_time and waiting_time >= 0. -/
theorem rr_waiting_bounds (s : SchedState) (_hlt : s.q.live.length < MAX_ACCOUNTS)
    (hd : s.q.live.Nodup)
    (h : ∀ p ∈ s.q.live,
      (s.metrics p).remaining_time = (s.metrics p).execution_time
      ∧ 1 ≤ (s.metrics p).execution_time
      ∧ (s.metrics p).arrival_time ≤ s.current_time)
    (hlo : INT_MIN ≤ s.current_time)
    (hhi : s.current_time
      + ((s.q.live).map (fun p => (s.metrics p).execution_time)).sum ≤ INT_MAX)
    (harr : ∀ p ∈ s.q.live,
      s.current_time + ((s.q.live).map (fun p => (s.metrics p).execution_time)).sum
        - (s.metrics p).arrival_time ≤ INT_MAX) :
    ∃ s1, round_robin_scheduling s = some s1
      ∧ ∀ p ∈ s.q.live,
          (s1.metrics p).execution_time = (s.metrics p).execution_time
          ∧ (s1.metrics p).completion_time ≥ s.current_time + (s1.metrics p).execution_time
          ∧ (s1.metrics p).turnaround_time ≥ (s1.metrics p).execution_time
          ∧ (s1.metrics p).waiting_time ≥ 0 := by
  have hsum : ((s.q.live).map (fun p => (s.metrics p).execution_time)).sum
      = remaining_total s := by
    unfold remaining_total
    congr 1
    apply List.map_congr_left
    intro x hx
    exact (h x hx).1.symm
  rw [hsum] at hhi harr
  obtain ⟨s1, h1, he⟩ := round_robin_returns s
  have hl1 : s1.q.live = [] := (queue_empty_iff s1.q).1 he
  have inv := rr_loop_invariant (WaitInv s)
    (fun t hq ht => rr_body_WaitInv s t hlo hhi
      (fun p hp => ⟨(h p hp).2.2, (h p hp).2.1, harr p hp⟩) hq ht)
    (rr_bound s) s s1 h1
    ⟨hd, fun _ hx => hx, le_refl _, rfl, fun x hx =>
      ⟨rfl, rfl, Or.inl ⟨hx, by rw [(h x hx).1]; exact (h x hx).2.1,
        by rw [(h x hx).1]⟩⟩⟩
  refine ⟨s1, h1, ?_⟩
  intro p hp
  have hp0 := inv.1.2.2.2.2 p hp
  have harr1 := (h p hp).2.2
  rcases hp0.2.2 with h2 | h2
  · rw [hl1] at h2
    exact absurd h2.1 (List.not_mem_nil p)
  · obtain ⟨_, hc, ht, hw⟩ := h2
    refine ⟨hp0.1, ?_, ?_, ?_⟩
    · rw [hp0.1]
      exact hc
    · rw [hp0.1, ht]
      omega
    · rw [hw, ht]
      omega

/-- C20 (amended), instance: `rrSample` (clock 0, arrival times 0, execution times 5, 2, 4). -/
theorem rr_waiting_bounds_witness :
    ∃ s1, round_robin_scheduling rrSample = some s1
      ∧ ∀ p ∈ rrSample.q.live,
          (s1.metrics p).execution_time = (rrSample.metrics p).execution_time
          ∧ (s1.metrics p).completion_time
              ≥ rrSample.current_time + (s1.metrics p).execution_time
          ∧ (s1.metrics p).turnaround_time ≥ (s1.metrics p).execution_time
          ∧ (s1.metrics p).waiting_time ≥ 0 :=
  rr_waiting_bounds rrSample (by decide) (by decide) (by decide) (by decide) (by decide)
    (by decide)

/-! ## The transaction coordinator -/

/-- C8 (the code at the failing inputs). `perform_transaction` passes its metrics index
`transaction_id` to `update_process_status`, not the id of the process it has just added.
With the empty process table and `transaction_id = 0` the appended record (process id 1)
stays PENDING. With one account created (`transaction_id = 1`) the first transaction is
marked COMPLETED, and the second one appends process 2, which stays PENDING. -/
theorem perform_transaction_leaves_pending :
    (∃ r, perform_transaction startWorld 1 5 1 0 0 = some r
      ∧ r.1.process_table.count = 1
      ∧ (r.1.process_table.processes ⟨0, by decide⟩).process_id = 1
      ∧ (r.1.process_table.processes ⟨0, by decide⟩).status = ProcessStatus.PENDING)
    ∧ (∃ r1, perform_transaction sampleWorld 1 5 1 1 0 = some r1
      ∧ r1.1.process_table.count = 1
      ∧ (r1.1.process_table.processes ⟨0, by decide⟩).status = ProcessStatus.COMPLETED
      ∧ ∃ r2, perform_transaction r1.1 1 5 1 1 0 = some r2
        ∧ r2.1.process_table.count = 2
        ∧ (r2.1.process_table.processes ⟨1, by decide⟩).process_id = 2
        ∧ (r2.1.process_table.processes ⟨1, by decide⟩).status = ProcessStatus.PENDING) := by
  refine ⟨⟨_, rfl, ?_, ?_, ?_⟩, ⟨_, rfl, ?_, ?_, ⟨_, rfl, ?_, ?_, ?_⟩⟩⟩ <;> decide

end Bank
